import Mathlib

/-!
Verification of the cassette-objects container library (cinputs slot table,
cref reference registry, cbook string arena) against its specification.

The C sources are shallowly embedded:
* `size_t` and `unsigned int` become `Nat` with explicit bounds `SIZE_MAX`
  and `UINT_MAX` checked where the code checks them;
* the backing buffers become Lean lists holding exactly the logical
  contents (`n` live slots, `n_chars` bytes, ...); the allocated capacities
  `n_alloc*` stay as separate numeric fields exactly as in the C structs.
  Bytes past the logical length are never read by any public operation, so
  this logical view is observation-equivalent to the physical buffers;
* `malloc`/`realloc` are modelled as always succeeding, hence `CERR_MEMORY`
  is never produced by the model (it still exists as a storable state);
* `safe_mul` is not part of the provided sources; it is modelled from the
  spec: it reports whether the product of its arguments stays within the
  platform size limit (and yields the product).
-/

/-- Error states, mirroring `enum cerr`.  In C, `CERR_NONE` is `0` and every
`if (obj->err)` test means `err ≠ CERR_NONE`. -/
inductive Cerr where
  | none
  | invalid
  | param
  | overflow
  | memory
deriving DecidableEq, Repr

/-- Platform maximum addressable size (`SIZE_MAX` on an LP64 platform). -/
def SIZE_MAX : Nat := 2 ^ 64 - 1

/-- Maximum of C `unsigned int` (`UINT_MAX`, 32-bit). -/
def UINT_MAX : Nat := 2 ^ 32 - 1

/-- Byte size of `struct slot` in inputs.c: `unsigned int id; int16_t x, y;
void *ptr;` packs to 16 bytes on LP64. -/
def sizeofInputsSlot : Nat := 16

/-- Byte size of `struct slot` in ref.c: `void *ptr; unsigned int n_ref;`
occupies 16 bytes on LP64 (8 + 4 + padding). -/
def sizeofRefSlot : Nat := 16

/-- Byte size of `size_t` on LP64. -/
def sizeofSizeT : Nat := 8

/-- Modelled from the spec: the overflow-checked multiplication helper
`safe_mul` (its source file is not under src/).  It reports whether
`a * b` stays within the platform size limit; callers that pass a result
pointer receive the product. -/
def safe_mul (a b : Nat) : Bool :=
  decide (a * b ≤ SIZE_MAX)

/-- C `int` truncated into `int16_t` storage (wrap-around conversion). -/
def toInt16 (x : Int) : Int :=
  (x + 32768) % 65536 - 32768

/-! ## Generic list helpers (first-match search, as the C `for` loops do) -/

/-- Index of the first element satisfying `p`, exactly like the linear scans
in `cinputs_find` and `cref_find`. -/
def findIndex (p : α → Bool) : List α → Option Nat
  | [] => Option.none
  | a :: l => if p a then Option.some 0 else (findIndex p l).map (· + 1)

theorem findIndex_some_lt {p : α → Bool} :
    ∀ {l : List α} {i : Nat}, findIndex p l = Option.some i → i < l.length := by
  intro l
  induction l with
  | nil => intro i h; simp [findIndex] at h
  | cons a l ih =>
    intro i h
    by_cases hp : p a
    · simp [findIndex, hp] at h
      simp only [List.length_cons]
      omega
    · simp [findIndex, hp] at h
      obtain ⟨j, hj, rfl⟩ := h
      have := ih hj
      simp only [List.length_cons]
      omega

theorem findIndex_none_iff {p : α → Bool} :
    ∀ {l : List α}, findIndex p l = Option.none ↔ ∀ a ∈ l, p a = false := by
  intro l
  induction l with
  | nil => simp [findIndex]
  | cons a l ih =>
    by_cases hp : p a <;> simp [findIndex, hp, ih]

theorem findIndex_some_getD {p : α → Bool} (d : α) :
    ∀ {l : List α} {i : Nat}, findIndex p l = Option.some i → p (l.getD i d) = true := by
  intro l
  induction l with
  | nil => intro i h; simp [findIndex] at h
  | cons a l ih =>
    intro i h
    by_cases hp : p a
    · simp [findIndex, hp] at h
      subst h
      simpa using hp
    · simp [findIndex, hp] at h
      obtain ⟨j, hj, rfl⟩ := h
      simpa using ih hj

theorem findIndex_eraseIdx_eraseP {p : α → Bool} :
    ∀ {l : List α} {i : Nat}, findIndex p l = Option.some i →
      l.eraseIdx i = l.eraseP p := by
  intro l
  induction l with
  | nil => intro i h; simp [findIndex] at h
  | cons a l ih =>
    intro i h
    by_cases hp : p a
    · simp [findIndex, hp] at h
      subst h
      simp [List.eraseP_cons, hp]
    · simp [findIndex, hp] at h
      obtain ⟨j, hj, rfl⟩ := h
      simp [List.eraseP_cons, hp, List.eraseIdx_cons_succ, ih hj]

theorem findIndex_append_singleton {p : α → Bool} {L : List α} {x : α}
    (h : ∀ a ∈ L, p a = false) :
    findIndex p (L ++ [x]) =
      if p x then Option.some L.length else Option.none := by
  induction L with
  | nil => by_cases hp : p x <;> simp [findIndex, hp]
  | cons a L ih =>
    have ha : p a = false := h a (by simp)
    have hL : ∀ b ∈ L, p b = false := fun b hb => h b (by simp [hb])
    by_cases hp : p x <;> simp [findIndex, ha, ih hL, hp]

theorem getD_append_self {L : List α} {x d : α} :
    (L ++ [x]).getD L.length d = x := by
  induction L with
  | nil => simp
  | cons a L ih => simp [ih]

theorem set_append_self {L : List α} {x y : α} :
    (L ++ [x]).set L.length y = L ++ [y] := by
  induction L with
  | nil => simp
  | cons a L ih => simp [ih]

theorem eraseIdx_append_self {L : List α} {x : α} :
    (L ++ [x]).eraseIdx L.length = L := by
  induction L with
  | nil => simp
  | cons a L ih => simp [ih]

theorem take_append_self {L M : List α} :
    (L ++ M).take L.length = L := by
  induction L with
  | nil => simp
  | cons a L ih => simp [ih]

theorem map_eraseIdx (f : α → β) :
    ∀ (l : List α) (i : Nat), (l.eraseIdx i).map f = (l.map f).eraseIdx i := by
  intro l
  induction l with
  | nil => intro i; simp
  | cons a l ih =>
    intro i
    cases i with
    | zero => simp
    | succ j => simp [List.eraseIdx_cons_succ, ih]

theorem nodup_eraseIdx {l : List α} (h : l.Nodup) (i : Nat) :
    (l.eraseIdx i).Nodup :=
  h.sublist (List.eraseIdx_sublist l i)

theorem nodup_concat {l : List α} {a : α} (h : l.Nodup) (ha : a ∉ l) :
    (l ++ [a]).Nodup := by
  induction l with
  | nil => simp
  | cons b l ih =>
    simp only [List.nodup_cons] at h
    simp only [List.mem_cons] at ha
    push_neg at ha
    simp only [List.cons_append, List.nodup_cons]
    constructor
    · simp only [List.mem_append, List.mem_singleton]
      rintro (hb | rfl)
      · exact h.1 hb
      · exact ha.1 rfl
    · exact ih h.2 ha.2

theorem nodup_count_one {l : List Nat} {a : Nat} (h : l.Nodup) (ha : a ∈ l) :
    l.count a = 1 := by
  induction l with
  | nil => simp at ha
  | cons b l ih =>
    simp only [List.nodup_cons] at h
    rcases List.mem_cons.mp ha with rfl | hmem
    · simp [List.count_cons, List.count_eq_zero_of_not_mem h.1]
    · have hne : b ≠ a := by
        rintro rfl
        exact h.1 hmem
      simp [List.count_cons, ih h.2 hmem, hne]

theorem length_eraseIdx_le : ∀ (l : List α) (i : Nat),
    (l.eraseIdx i).length ≤ l.length := by
  intro l
  induction l with
  | nil => intro i; simp
  | cons a l ih =>
    intro i
    cases i with
    | zero => simp
    | succ j =>
      simp only [List.eraseIdx_cons_succ, List.length_cons]
      have := ih j
      omega

/-! ## Slot table (`cinputs`, inputs.c) -/

/-- One `struct slot` of inputs.c. -/
structure Slot where
  id : Nat
  x : Int
  y : Int
  ptr : Nat
deriving DecidableEq, Repr

/-- `struct cinputs`.  `slots` holds the `n` live entries, so the C field
`n` is `slots.length`; `n_alloc` is the allocated capacity. -/
structure Cinputs where
  slots : List Slot
  n_alloc : Nat
  default_ptr : Nat
  err : Cerr
deriving DecidableEq, Repr

/-- `cinputs_placeholder_instance`. -/
def cinputs_placeholder : Cinputs :=
  ⟨[], 0, 0, Cerr.invalid⟩

/-- Static helper `resize` of inputs.c (realloc modelled as succeeding). -/
def cinputsResize (s : Cinputs) (n : Nat) : Cinputs × Bool :=
  if n = 0 then ({s with err := Cerr.param}, false)
  else if ¬ safe_mul n sizeofInputsSlot then ({s with err := Cerr.overflow}, false)
  else ({s with slots := s.slots.take n, n_alloc := n}, true)

/-- `cinputs_create`. -/
def cinputs_create (max_inputs : Nat) : Cinputs :=
  let s0 : Cinputs := ⟨[], 0, 0, Cerr.none⟩
  let r := cinputsResize s0 max_inputs
  if r.2 then {r.1 with slots := [], default_ptr := 0, err := Cerr.none}
  else cinputs_placeholder

/-- `cinputs_clear`. -/
def cinputs_clear (s : Cinputs) : Cinputs :=
  if s.err ≠ Cerr.none then s else {s with slots := []}

/-- `cinputs_clone` (calloc modelled as succeeding). -/
def cinputs_clone (s : Cinputs) : Cinputs :=
  if s.err ≠ Cerr.none then cinputs_placeholder
  else {s with err := Cerr.none}

/-- `cinputs_error`. -/
def cinputs_error (s : Cinputs) : Cerr := s.err

/-- `cinputs_find`: linear scan; `Option.some i` models `true` with the
out-parameter set to `i`. -/
def cinputs_find (s : Cinputs) (id : Nat) : Option Nat :=
  if s.err ≠ Cerr.none then Option.none
  else findIndex (fun sl => sl.id == id) s.slots

/-- `cinputs_id`. -/
def cinputs_id (s : Cinputs) (index : Nat) : Nat :=
  if s.err ≠ Cerr.none ∨ s.slots.length ≤ index then 0
  else (s.slots.getD index ⟨0, 0, 0, 0⟩).id

/-- `cinputs_load`. -/
def cinputs_load (s : Cinputs) : Nat :=
  if s.err ≠ Cerr.none then 0 else s.slots.length

/-- `cinputs_ptr`. -/
def cinputs_ptr (s : Cinputs) (index : Nat) : Nat :=
  if s.err ≠ Cerr.none ∨ s.slots.length ≤ index then s.default_ptr
  else (s.slots.getD index ⟨0, 0, 0, 0⟩).ptr

/-- `cinputs_pull_index`: `memmove` compaction is `eraseIdx`. -/
def cinputs_pull_index (s : Cinputs) (index : Nat) : Cinputs :=
  if s.err ≠ Cerr.none ∨ s.slots.length ≤ index then s
  else {s with slots := s.slots.eraseIdx index}

/-- `cinputs_pull_id`. -/
def cinputs_pull_id (s : Cinputs) (id : Nat) : Cinputs :=
  match cinputs_find s id with
  | Option.some i => cinputs_pull_index s i
  | Option.none => s

/-- `cinputs_push`: upsert; drops the entry when capacity is exhausted. -/
def cinputs_push (s : Cinputs) (id : Nat) (x y : Int) (ptr : Nat) : Cinputs :=
  if s.err ≠ Cerr.none then s
  else
    let s1 := cinputs_pull_id s id
    if s1.n_alloc ≤ s1.slots.length then s1
    else {s1 with slots := s1.slots ++ [⟨id, toInt16 x, toInt16 y, ptr⟩]}

/-- `cinputs_repair`. -/
def cinputs_repair (s : Cinputs) : Cinputs :=
  if s.err ≠ Cerr.invalid then {s with err := Cerr.none} else s

/-- `cinputs_resize` (public). -/
def cinputs_resize (s : Cinputs) (max_inputs : Nat) : Cinputs :=
  if s.err ≠ Cerr.none then s else (cinputsResize s max_inputs).1

/-- `cinputs_set_default_ptr`. -/
def cinputs_set_default_ptr (s : Cinputs) (ptr : Nat) : Cinputs :=
  if s.err ≠ Cerr.none then s else {s with default_ptr := ptr}

/-- `cinputs_x`. -/
def cinputs_x (s : Cinputs) (index : Nat) : Int :=
  if s.err ≠ Cerr.none ∨ s.slots.length ≤ index then 0
  else (s.slots.getD index ⟨0, 0, 0, 0⟩).x

/-- `cinputs_y`. -/
def cinputs_y (s : Cinputs) (index : Nat) : Int :=
  if s.err ≠ Cerr.none ∨ s.slots.length ≤ index then 0
  else (s.slots.getD index ⟨0, 0, 0, 0⟩).y

example : cinputs_load (cinputs_push (cinputs_create 2) 5 1 2 9) = 1 := by decide
example : cinputs_find (cinputs_push (cinputs_create 2) 5 1 2 9) 5 = Option.some 0 := by decide
example :
    cinputs_load (cinputs_push (cinputs_push (cinputs_push (cinputs_create 2) 1 0 0 0)
      2 0 0 0) 3 0 0 0) = 2 := by decide
example :
    cinputs_find (cinputs_push (cinputs_push (cinputs_push (cinputs_create 2) 1 0 0 0)
      2 0 0 0) 3 0 0 0) 3 = Option.none := by decide

/-! ## Reference registry (`cref`, ref.c) -/

/-- One `struct slot` of ref.c: a pointer identity and its reference count. -/
structure RSlot where
  ptr : Nat
  n_ref : Nat
deriving DecidableEq, Repr

/-- `struct cref`.  `slots` holds the `n` live entries (C field `n` is
`slots.length`); `n_alloc` is the allocated capacity. -/
structure Cref where
  slots : List RSlot
  n_alloc : Nat
  default_ptr : Nat
  err : Cerr
deriving DecidableEq, Repr

/-- `cref_placeholder_instance`. -/
def cref_placeholder : Cref :=
  ⟨[], 0, 0, Cerr.invalid⟩

/-- Static helper `grow` of ref.c (realloc modelled as succeeding). -/
def crefGrow (s : Cref) (n : Nat) : Cref × Bool :=
  if n ≤ s.n_alloc then (s, true)
  else if ¬ safe_mul n sizeofRefSlot then ({s with err := Cerr.overflow}, false)
  else ({s with n_alloc := n}, true)

/-- `cref_create`: `grow(ref, 1)` always succeeds in the model. -/
def cref_create : Cref :=
  ⟨[], 1, 0, Cerr.none⟩

/-- `cref_clear`. -/
def cref_clear (s : Cref) : Cref :=
  if s.err ≠ Cerr.none then s else {s with slots := []}

/-- `cref_clone` (calloc modelled as succeeding). -/
def cref_clone (s : Cref) : Cref :=
  if s.err ≠ Cerr.none then cref_placeholder
  else {s with err := Cerr.none}

/-- `cref_count`. -/
def cref_count (s : Cref) (index : Nat) : Nat :=
  if s.err ≠ Cerr.none ∨ s.slots.length ≤ index then 0
  else (s.slots.getD index ⟨0, 0⟩).n_ref

/-- `cref_error`. -/
def cref_error (s : Cref) : Cerr := s.err

/-- `cref_find`: returns the reference count (0 meaning absent). -/
def cref_find (s : Cref) (ptr : Nat) : Nat :=
  if s.err ≠ Cerr.none then 0
  else
    match findIndex (fun sl => sl.ptr == ptr) s.slots with
    | Option.some i => (s.slots.getD i ⟨0, 0⟩).n_ref
    | Option.none => 0

/-- Index reported through `cref_find`'s out-parameter (meaningful whenever
`cref_find` returns a positive count). -/
def crefFindIndex (s : Cref) (ptr : Nat) : Nat :=
  (findIndex (fun sl => sl.ptr == ptr) s.slots).getD 0

/-- `cref_length`. -/
def cref_length (s : Cref) : Nat :=
  if s.err ≠ Cerr.none then 0 else s.slots.length

/-- `cref_prealloc`. -/
def cref_prealloc (s : Cref) (slots_number : Nat) : Cref :=
  if s.err ≠ Cerr.none then s else (crefGrow s slots_number).1

/-- `cref_ptr`. -/
def cref_ptr (s : Cref) (index : Nat) : Nat :=
  if s.err ≠ Cerr.none ∨ s.slots.length ≤ index then s.default_ptr
  else (s.slots.getD index ⟨0, 0⟩).ptr

/-- Static helper `pull` of ref.c: `memmove` compaction plus `--n`. -/
def crefPull (s : Cref) (i : Nat) : Cref :=
  {s with slots := s.slots.eraseIdx i}

/-- The unsigned decrement `--n_ref`: a count of 0 wraps to `UINT_MAX`
exactly as in C. -/
def decRef (r : Nat) : Nat :=
  if r = 0 then UINT_MAX else r - 1

/-- `cref_pull_index`: decrements the count in place and removes the entry
only when the count reaches zero. -/
def cref_pull_index (s : Cref) (index : Nat) : Cref :=
  if s.err ≠ Cerr.none ∨ s.slots.length ≤ index then s
  else if 0 < decRef (s.slots.getD index ⟨0, 0⟩).n_ref then
    {s with slots := (s.slots.set index
      ⟨(s.slots.getD index ⟨0, 0⟩).ptr, decRef (s.slots.getD index ⟨0, 0⟩).n_ref⟩)}
  else crefPull s index

/-- `cref_pull_ptr`. -/
def cref_pull_ptr (s : Cref) (ptr : Nat) : Cref :=
  if 0 < cref_find s ptr then cref_pull_index s (crefFindIndex s ptr) else s

/-- `cref_purge_index`. -/
def cref_purge_index (s : Cref) (index : Nat) : Cref :=
  if s.err ≠ Cerr.none ∨ s.slots.length ≤ index then s
  else crefPull s index

/-- `cref_purge_ptr`. -/
def cref_purge_ptr (s : Cref) (ptr : Nat) : Cref :=
  if 0 < cref_find s ptr then cref_purge_index s (crefFindIndex s ptr) else s

/-- `cref_push`: increments the count of a present pointer (overflow-checked
against `UINT_MAX`), otherwise appends a count-1 entry, doubling the backing
store when full. -/
def cref_push (s : Cref) (ptr : Nat) : Cref :=
  if s.err ≠ Cerr.none then s
  else if 0 < cref_find s ptr then
    if (s.slots.getD (crefFindIndex s ptr) ⟨0, 0⟩).n_ref = UINT_MAX then
      {s with err := Cerr.overflow}
    else
      {s with slots := (s.slots.set (crefFindIndex s ptr)
        ⟨(s.slots.getD (crefFindIndex s ptr) ⟨0, 0⟩).ptr,
          (s.slots.getD (crefFindIndex s ptr) ⟨0, 0⟩).n_ref + 1⟩)}
  else
    if s.n_alloc ≤ s.slots.length then
      if ¬ safe_mul s.n_alloc 2 then {s with err := Cerr.overflow}
      else if (crefGrow s (s.n_alloc * 2)).2 then
        {(crefGrow s (s.n_alloc * 2)).1 with
          slots := (crefGrow s (s.n_alloc * 2)).1.slots ++ [⟨ptr, 1⟩]}
      else (crefGrow s (s.n_alloc * 2)).1
    else {s with slots := s.slots ++ [⟨ptr, 1⟩]}

/-- `cref_repair`. -/
def cref_repair (s : Cref) : Cref :=
  if s.err ≠ Cerr.invalid then {s with err := Cerr.none} else s

/-- `cref_set_default_ptr`. -/
def cref_set_default_ptr (s : Cref) (ptr : Nat) : Cref :=
  if s.err ≠ Cerr.none then s else {s with default_ptr := ptr}

/-- `k` successive `cref_push(p)` calls. -/
def crefPushN : Nat → Cref → Nat → Cref
  | 0, s, _ => s
  | k + 1, s, p => crefPushN k (cref_push s p) p

/-- `k` successive `cref_pull_ptr(p)` calls. -/
def crefPullN : Nat → Cref → Nat → Cref
  | 0, s, _ => s
  | k + 1, s, p => crefPullN k (cref_pull_ptr s p) p

example : cref_find (crefPushN 3 cref_create 7) 7 = 3 := by decide
example : cref_find (crefPullN 1 (crefPushN 3 cref_create 7) 7) 7 = 2 := by decide
example : cref_find (crefPullN 3 (crefPushN 3 cref_create 7) 7) 7 = 0 := by decide
example : cref_length (crefPullN 3 (crefPushN 3 cref_create 7) 7) = 0 := by decide
example : cref_find (cref_purge_ptr (crefPushN 3 cref_create 7) 7) 7 = 0 := by decide

/-! ## String arena (`cbook`, book.c)

`chars`, `words`, `groups` hold exactly the logical contents (the C fields
`n_chars`, `n_words`, `n_groups` are the list lengths); the allocated
capacities stay as numeric fields.  A word is written as its byte list
(without NUL); the arena stores it NUL-terminated, so `cbook_write`
appends `b ++ [0]`. -/

structure Cbook where
  chars : List Nat
  words : List Nat
  groups : List Nat
  n_alloc_chars : Nat
  n_alloc_words : Nat
  n_alloc_groups : Nat
  new_group : Bool
  err : Cerr
deriving DecidableEq, Repr

/-- `cbook_placeholder_instance`. -/
def cbook_placeholder : Cbook :=
  ⟨[], [], [], 0, 0, 0, false, Cerr.invalid⟩

/-- Static helper `grow` of book.c.  The byte-size overflow checks on the
word and group index buffers come first, exactly as in the C code; realloc
is modelled as succeeding, so `CERR_MEMORY` never arises here. -/
def cbookGrow (s : Cbook) (nc nw ng : Nat) : Cbook × Bool :=
  if ¬ (safe_mul nw sizeofSizeT ∧ safe_mul ng sizeofSizeT) then
    ({s with err := Cerr.overflow}, false)
  else
    ({s with
        n_alloc_chars := if s.n_alloc_chars < nc then nc else s.n_alloc_chars,
        n_alloc_words := if s.n_alloc_words < nw then nw else s.n_alloc_words,
        n_alloc_groups := if s.n_alloc_groups < ng then ng else s.n_alloc_groups},
      true)

/-- The `while (ns > nc - n_chars) { safe_mul(&nc, nc, 2); }` loop of
`cbook_write`, doubling the character capacity until the new word fits or
the doubling overflows `SIZE_MAX`.  Structural fuel of 65 covers every run
that C performs: starting from `nc ≥ 1` the loop body can execute at most
64 times before `2 * nc` exceeds `SIZE_MAX = 2^64 - 1`.  (With `nc = 0` the
C loop would never terminate; the model returns `Option.none`, and every
reachable arena has `n_alloc_chars ≥ 1`.  The C subtraction `nc - n_chars`
is on `size_t`; as in C, all states considered satisfy `n_chars ≤ nc`.) -/
def growCharsAux : Nat → Nat → Nat → Nat → Option Nat
  | 0, _, _, _ => Option.none
  | fuel + 1, ns, nchars, nc =>
    if ns ≤ nc - nchars then Option.some nc
    else if ¬ safe_mul nc 2 then Option.none
    else growCharsAux fuel ns nchars (nc * 2)

def growCharsLoop (ns nchars nc : Nat) : Option Nat :=
  growCharsAux 65 ns nchars nc

/-- `cbook_create`: `grow(book, 1, 1, 1)` always succeeds in the model. -/
def cbook_create : Cbook :=
  ⟨[], [], [], 1, 1, 1, true, Cerr.none⟩

/-- `cbook_clear`. -/
def cbook_clear (s : Cbook) : Cbook :=
  if s.err ≠ Cerr.none then s
  else {s with groups := [], words := [], chars := [], new_group := true}

/-- `cbook_clone` (calloc modelled as succeeding). -/
def cbook_clone (s : Cbook) : Cbook :=
  if s.err ≠ Cerr.none then cbook_placeholder
  else {s with err := Cerr.none}

/-- `cbook_error`. -/
def cbook_error (s : Cbook) : Cerr := s.err

/-- Static helper `group_size` of book.c. -/
def groupSize (s : Cbook) (i : Nat) : Nat :=
  if s.groups.length ≤ i then 0
  else if i = s.groups.length - 1 then s.words.length - s.groups.getD i 0
  else s.groups.getD (i + 1) 0 - s.groups.getD i 0

/-- `cbook_group_length`. -/
def cbook_group_length (s : Cbook) (group_index : Nat) : Nat :=
  if s.err ≠ Cerr.none then 0 else groupSize s group_index

/-- `cbook_groups_number`. -/
def cbook_groups_number (s : Cbook) : Nat :=
  if s.err ≠ Cerr.none then 0 else s.groups.length

/-- `cbook_length`. -/
def cbook_length (s : Cbook) : Nat :=
  if s.err ≠ Cerr.none then 0 else s.chars.length

/-- `cbook_pop_group`: rewinds the byte and word counts to the last group's
start offsets (`n_chars = words[groups[--n_groups]]; n_words = groups[n_groups]`).
The C read `groups[n_groups - 1]` with `n_groups = 0` never happens because
of the guard. -/
def cbook_pop_group (s : Cbook) : Cbook :=
  if s.err ≠ Cerr.none ∨ s.groups.length = 0 then s
  else
    let g := s.groups.getD (s.groups.length - 1) 0
    {s with
      chars := s.chars.take (s.words.getD g 0),
      words := s.words.take g,
      groups := s.groups.dropLast,
      new_group := if s.groups.length - 1 = 0 then true else s.new_group}

/-- `cbook_pop_word`: drops the last word; if it was the sole word of the
last group the group count also decrements (forcing `new_group` back on
when no group is left).  C reads `groups[n_groups - 1]` without checking
`n_groups > 0`; with `n_groups = 0` that is undefined behaviour in C
(modelled here by `getD` returning 0) but every reachable arena with a word
also has a group. -/
def cbook_pop_word (s : Cbook) : Cbook :=
  if s.err ≠ Cerr.none ∨ s.words.length = 0 then s
  else
    let s1 :=
      if s.groups.getD (s.groups.length - 1) 0 = s.words.length - 1 then
        if s.groups.dropLast.length = 0 then
          {s with groups := s.groups.dropLast, new_group := true}
        else {s with groups := s.groups.dropLast}
      else s
    {s1 with
      chars := s1.chars.take (s1.words.getD (s1.words.length - 1) 0),
      words := s1.words.dropLast}

/-- `cbook_prealloc`. -/
def cbook_prealloc (s : Cbook) (bytes_number words_number groups_number : Nat) : Cbook :=
  if s.err ≠ Cerr.none then s
  else (cbookGrow s bytes_number words_number groups_number).1

/-- `cbook_prepare_new_group`. -/
def cbook_prepare_new_group (s : Cbook) : Cbook :=
  if s.err ≠ Cerr.none then s else {s with new_group := true}

/-- `cbook_repair`. -/
def cbook_repair (s : Cbook) : Cbook :=
  if s.err ≠ Cerr.invalid then {s with err := Cerr.none} else s

/-- `cbook_undo_new_group`: note the guard — it is a no-op whenever
`n_groups == 0`, and clears the flag otherwise. -/
def cbook_undo_new_group (s : Cbook) : Cbook :=
  if s.err ≠ Cerr.none ∨ s.groups.length = 0 then s
  else {s with new_group := false}

/-- The NUL-terminated C string starting at byte offset `off`. -/
def readCString (chars : List Nat) (off : Nat) : List Nat :=
  (chars.drop off).takeWhile (fun c => c ≠ 0)

/-- `cbook_word` (the empty list models the `""` default). -/
def cbook_word (s : Cbook) (word_index : Nat) : List Nat :=
  if s.err ≠ Cerr.none ∨ s.words.length ≤ word_index then []
  else readCString s.chars (s.words.getD word_index 0)

/-- `cbook_word_in_group`. -/
def cbook_word_in_group (s : Cbook) (group_index word_local_index : Nat) : List Nat :=
  if s.err ≠ Cerr.none ∨ groupSize s group_index = 0
      ∨ groupSize s group_index ≤ word_local_index then []
  else readCString s.chars
    (s.words.getD (s.groups.getD group_index 0 + word_local_index) 0)

/-- `cbook_word_index`. -/
def cbook_word_index (s : Cbook) (group_index word_local_index : Nat) : Nat :=
  if s.err ≠ Cerr.none ∨ groupSize s group_index = 0
      ∨ groupSize s group_index ≤ word_local_index then 0
  else s.groups.getD group_index 0 + word_local_index

/-- `cbook_words_number`. -/
def cbook_words_number (s : Cbook) : Nat :=
  if s.err ≠ Cerr.none then 0 else s.words.length

/-- `cbook_write`: appends one NUL-terminated word, opening a new group
first when `new_group` is set.  Mirrors the C statement order: the three
requested capacities, the doubling loop, `grow`, the group record, then the
word record and the bytes. -/
def cbook_write (s : Cbook) (b : List Nat) : Cbook :=
  if s.err ≠ Cerr.none then s
  else
    let ns := b.length + 1
    let nw := s.n_alloc_words * (if s.n_alloc_words ≤ s.words.length then 2 else 1)
    let ng := s.n_alloc_groups * (if s.n_alloc_groups ≤ s.groups.length then 2 else 1)
    match growCharsLoop ns s.chars.length s.n_alloc_chars with
    | Option.none => {s with err := Cerr.overflow}
    | Option.some nc =>
      let g := cbookGrow s nc nw ng
      if g.2 then
        let s2 :=
          if g.1.new_group then
            {g.1 with groups := g.1.groups ++ [g.1.words.length], new_group := false}
          else g.1
        {s2 with
          words := s2.words ++ [s2.chars.length],
          chars := s2.chars ++ b ++ [0]}
      else g.1

/-- `cbook_zero`: `memset` of the byte buffer plus the three counter
resets.  Unlike `cbook_clear` it does NOT touch `new_group`. -/
def cbook_zero (s : Cbook) : Cbook :=
  if s.err ≠ Cerr.none then s
  else {s with groups := [], words := [], chars := []}

/-- `cbook_write` folded over a list of words. -/
def cbookWrites (l : List (List Nat)) (s : Cbook) : Cbook :=
  l.foldl (fun t b => cbook_write t b) s

/-- `cbook_pop_word` iterated `n` times. -/
def cbookPops : Nat → Cbook → Cbook
  | 0, s => s
  | n + 1, s => cbookPops n (cbook_pop_word s)

example : cbook_length (cbookWrites [[97], [98, 98], [99, 99, 99]] cbook_create) = 9 := by decide
example : cbook_words_number (cbookWrites [[97], [98, 98], [99, 99, 99]] cbook_create) = 3 := by decide
example : cbook_groups_number (cbookWrites [[97], [98, 98], [99, 99, 99]] cbook_create) = 1 := by decide
example : cbook_word (cbookWrites [[97], [98, 98]] cbook_create) 1 = [98, 98] := by decide
example :
    (cbookPops 3 (cbookWrites [[97], [98, 98], [99, 99, 99]] cbook_create)).chars = [] ∧
    (cbookPops 3 (cbookWrites [[97], [98, 98], [99, 99, 99]] cbook_create)).words = [] ∧
    (cbookPops 3 (cbookWrites [[97], [98, 98], [99, 99, 99]] cbook_create)).groups = [] := by decide
example :
    cbook_groups_number (cbookWrites [[97], [98]]
      (cbook_prepare_new_group (cbookWrites [[120]] cbook_create))) = 2 := by decide

/-! ## Public mutating operations as data, for quantifying over call
sequences -/

inductive InputsOp where
  | clear
  | push (id : Nat) (x y : Int) (ptr : Nat)
  | pullId (id : Nat)
  | pullIndex (index : Nat)
  | resize (n : Nat)
  | setDefaultPtr (ptr : Nat)
  | repair
deriving DecidableEq, Repr

def applyInputsOp : InputsOp → Cinputs → Cinputs
  | InputsOp.clear, s => cinputs_clear s
  | InputsOp.push id x y p, s => cinputs_push s id x y p
  | InputsOp.pullId id, s => cinputs_pull_id s id
  | InputsOp.pullIndex i, s => cinputs_pull_index s i
  | InputsOp.resize n, s => cinputs_resize s n
  | InputsOp.setDefaultPtr p, s => cinputs_set_default_ptr s p
  | InputsOp.repair, s => cinputs_repair s

def applyInputsOps (l : List InputsOp) (s : Cinputs) : Cinputs :=
  l.foldl (fun t op => applyInputsOp op t) s

inductive RefOp where
  | clear
  | push (ptr : Nat)
  | pullIndex (index : Nat)
  | pullPtr (ptr : Nat)
  | purgeIndex (index : Nat)
  | purgePtr (ptr : Nat)
  | prealloc (n : Nat)
  | setDefaultPtr (ptr : Nat)
  | repair
deriving DecidableEq, Repr

def applyRefOp : RefOp → Cref → Cref
  | RefOp.clear, s => cref_clear s
  | RefOp.push p, s => cref_push s p
  | RefOp.pullIndex i, s => cref_pull_index s i
  | RefOp.pullPtr p, s => cref_pull_ptr s p
  | RefOp.purgeIndex i, s => cref_purge_index s i
  | RefOp.purgePtr p, s => cref_purge_ptr s p
  | RefOp.prealloc n, s => cref_prealloc s n
  | RefOp.setDefaultPtr p, s => cref_set_default_ptr s p
  | RefOp.repair, s => cref_repair s

def applyRefOps (l : List RefOp) (s : Cref) : Cref :=
  l.foldl (fun t op => applyRefOp op t) s

inductive BookOp where
  | write (b : List Nat)
  | popWord
  | popGroup
  | prepareNewGroup
  | undoNewGroup
  | prealloc (nb nw ng : Nat)
  | clear
  | zero
  | repair
deriving DecidableEq, Repr

def applyBookOp : BookOp → Cbook → Cbook
  | BookOp.write b, s => cbook_write s b
  | BookOp.popWord, s => cbook_pop_word s
  | BookOp.popGroup, s => cbook_pop_group s
  | BookOp.prepareNewGroup, s => cbook_prepare_new_group s
  | BookOp.undoNewGroup, s => cbook_undo_new_group s
  | BookOp.prealloc nb nw ng, s => cbook_prealloc s nb nw ng
  | BookOp.clear, s => cbook_clear s
  | BookOp.zero, s => cbook_zero s
  | BookOp.repair, s => cbook_repair s

def applyBookOps (l : List BookOp) (s : Cbook) : Cbook :=
  l.foldl (fun t op => applyBookOp op t) s

/-! ## Claim C3: capacity ceiling of the slot table -/

/-- C3: for an error-free slot table whose length equals its capacity,
pushing an id that is not already present changes nothing: the length stays
the same and the new id is not found afterwards (capacity 2 with three
distinct pushes is the witness below). -/
theorem cinputs_push_capacity_drop (s : Cinputs) (id : Nat) (x y : Int) (p : Nat)
    (he : s.err = Cerr.none) (hfull : s.slots.length = s.n_alloc)
    (habs : id ∉ s.slots.map Slot.id) :
    cinputs_push s id x y p = s ∧
    cinputs_load (cinputs_push s id x y p) = cinputs_load s ∧
    cinputs_find (cinputs_push s id x y p) id = Option.none := by
  have hids : ∀ a ∈ s.slots, (a.id == id) = false := by
    intro a ha
    simp only [beq_eq_false_iff_ne, ne_eq]
    intro hc
    exact habs (hc ▸ List.mem_map_of_mem Slot.id ha)
  have hfind : cinputs_find s id = Option.none := by
    simp [cinputs_find, he, findIndex_none_iff.mpr hids]
  have hpull : cinputs_pull_id s id = s := by
    simp [cinputs_pull_id, hfind]
  have hpush : cinputs_push s id x y p = s := by
    simp [cinputs_push, he, hpull, ← hfull]
  exact ⟨hpush, by rw [hpush], by rw [hpush, hfind]⟩

theorem cinputs_push_capacity_drop_witness :
    cinputs_load (cinputs_push (cinputs_push (cinputs_push (cinputs_create 2) 1 0 0 0)
      2 0 0 0) 3 0 0 0) = 2 ∧
    cinputs_find (cinputs_push (cinputs_push (cinputs_push (cinputs_create 2) 1 0 0 0)
      2 0 0 0) 3 0 0 0) 3 = Option.none := by
  have h := cinputs_push_capacity_drop
    (cinputs_push (cinputs_push (cinputs_create 2) 1 0 0 0) 2 0 0 0) 3 0 0 0
    (by decide) (by decide) (by decide)
  exact ⟨by rw [h.2.1]; decide, h.2.2⟩

/-! ## Claim C9: positional accessor defaults of the slot table -/

/-- C9 counterexample: the claim says each of `id`, `x`, `y`, `ptr` returns
the caller-settable configured default on an out-of-range index, but
`cinputs_id` returns the fixed value 0, not the configured default (here 5). -/
theorem cinputs_accessor_default_cex :
    cinputs_id (cinputs_set_default_ptr (cinputs_create 1) 5) 0 ≠
      (cinputs_set_default_ptr (cinputs_create 1) 5).default_ptr := by decide

/-- C9 amended: on an out-of-range index or an active error, `ptr` returns
the caller-settable configured default, while `id`, `x` and `y` return the
fixed default 0. -/
theorem cinputs_accessor_defaults (s : Cinputs) (i : Nat)
    (h : s.err ≠ Cerr.none ∨ s.slots.length ≤ i) :
    cinputs_ptr s i = s.default_ptr ∧ cinputs_id s i = 0 ∧
    cinputs_x s i = 0 ∧ cinputs_y s i = 0 := by
  refine ⟨?_, ?_, ?_, ?_⟩ <;>
    simp only [cinputs_ptr, cinputs_id, cinputs_x, cinputs_y] <;>
    rw [if_pos h]

theorem cinputs_accessor_defaults_witness :
    cinputs_ptr (cinputs_set_default_ptr (cinputs_create 1) 5) 3 = 5 ∧
    cinputs_id (cinputs_set_default_ptr (cinputs_create 1) 5) 3 = 0 := by
  have h := cinputs_accessor_defaults (cinputs_set_default_ptr (cinputs_create 1) 5) 3
    (by decide)
  exact ⟨by rw [h.1]; decide, h.2.1⟩

/-! ## Claim C6: the new-group flag -/

/-- C6 counterexample: the claim says `undo_new_group` clears the flag when
no group has been opened yet; on a fresh arena (zero groups) after
`prepare_new_group`, the code leaves the flag set — the guard
`n_groups == 0` makes the call a no-op exactly in the no-group case. -/
theorem cbook_undo_new_group_claim_cex :
    cbook_groups_number (cbook_prepare_new_group cbook_create) = 0 ∧
    (cbook_undo_new_group (cbook_prepare_new_group cbook_create)).new_group = true := by
  decide

/-- C6 amended: `prepare_new_group` sets the flag so the next write opens a
new group; `undo_new_group` clears the flag only when at least one group
already exists, is a no-op (flag stays set) while the arena has zero
groups, and is in particular a no-op when a group exists and a write has
already cleared the flag. -/
theorem cbook_undo_new_group_amended (s : Cbook) (he : s.err = Cerr.none) :
    (cbook_prepare_new_group s).new_group = true ∧
    (s.groups.length = 0 → cbook_undo_new_group s = s) ∧
    (0 < s.groups.length → (cbook_undo_new_group s).new_group = false) ∧
    (0 < s.groups.length → s.new_group = false → cbook_undo_new_group s = s) := by
  refine ⟨?_, ?_, ?_, ?_⟩
  · simp [cbook_prepare_new_group, he]
  · intro h0
    simp [cbook_undo_new_group, he, h0]
  · intro hpos
    have h0 : ¬ s.groups.length = 0 := by omega
    simp [cbook_undo_new_group, he, h0]
  · intro hpos hng
    have h0 : ¬ (s.err ≠ Cerr.none ∨ s.groups.length = 0) := by
      push_neg
      exact ⟨he, by omega⟩
    simp only [cbook_undo_new_group, if_neg h0]
    rw [← hng]

theorem cbook_undo_new_group_amended_witness :
    (cbook_prepare_new_group (cbookWrites [[97]] cbook_create)).new_group = true ∧
    (cbook_undo_new_group (cbookWrites [[97]] cbook_create)).new_group = false := by
  have h := cbook_undo_new_group_amended (cbookWrites [[97]] cbook_create) (by decide)
  exact ⟨h.1, h.2.2.1 (by decide)⟩

/-! ## Claim C7: `cbook_zero` versus `cbook_clear` -/

/-- C7 (code bug evidence): `cbook_zero` resets the three lengths but,
unlike `cbook_clear`, does not force `new_group` back on.  After
`write; zero; write` the arena holds one word and ZERO groups (the word
belongs to no group), while after `write; clear; write` it holds one word
in one group.  Every other path that empties the arena (`clear`,
`pop_group`, `pop_word`) forces `new_group = true`, and the header comment
documents `zero` as "Similar to cbook_clear()"; a word without a group also
makes the later `pop_word` read `groups[n_groups - 1]` with `n_groups == 0`,
which is undefined behaviour in C. -/
theorem cbook_zero_write_divergence :
    (cbook_zero (cbook_write cbook_create [97])).new_group = false ∧
    (cbook_clear (cbook_write cbook_create [97])).new_group = true ∧
    cbook_words_number (cbook_write (cbook_zero (cbook_write cbook_create [97])) [98]) = 1 ∧
    cbook_groups_number (cbook_write (cbook_zero (cbook_write cbook_create [97])) [98]) = 0 ∧
    cbook_words_number (cbook_write (cbook_clear (cbook_write cbook_create [97])) [98]) = 1 ∧
    cbook_groups_number (cbook_write (cbook_clear (cbook_write cbook_create [97])) [98]) = 1 := by
  decide

/-! ## Claim C2: id uniqueness of the slot table -/

theorem not_mem_ids_of_findIndex_none {l : List Slot} {id : Nat}
    (hf : findIndex (fun sl => sl.id == id) l = Option.none) :
    id ∉ l.map Slot.id := by
  intro hmem
  obtain ⟨a, ha, haid⟩ := List.mem_map.mp hmem
  have hfa := (findIndex_none_iff.mp hf) a ha
  simp [haid] at hfa

theorem erase_first_not_mem {l : List Slot} {id : Nat} :
    ∀ {i : Nat}, (l.map Slot.id).Nodup →
      findIndex (fun sl => sl.id == id) l = Option.some i →
      id ∉ (l.eraseIdx i).map Slot.id := by
  induction l with
  | nil => intro i _ hf; simp [findIndex] at hf
  | cons a l ih =>
    intro i h hf
    rw [List.map_cons, List.nodup_cons] at h
    by_cases hp : (a.id == id : Bool)
    · simp only [findIndex, if_pos hp, Option.some.injEq] at hf
      subst hf
      have hid : a.id = id := by simpa using hp
      simpa [List.eraseIdx_cons_zero, ← hid] using h.1
    · simp only [findIndex, if_neg hp] at hf
      rw [Option.map_eq_some'] at hf
      obtain ⟨j, hj, rfl⟩ := hf
      simp only [List.eraseIdx_cons_succ, List.map_cons, List.mem_cons]
      push_neg
      refine ⟨?_, ih h.2 hj⟩
      intro hc
      simp [hc] at hp

theorem findIndex_ids_some_of_mem {l : List Slot} {id : Nat}
    (hmem : id ∈ l.map Slot.id) :
    ∃ i, findIndex (fun sl => sl.id == id) l = Option.some i := by
  rcases hf : findIndex (fun sl => sl.id == id) l with _ | i
  · exact absurd hmem (not_mem_ids_of_findIndex_none hf)
  · exact ⟨i, hf⟩

theorem length_eraseIdx_eq : ∀ (l : List α) (i : Nat), i < l.length →
    (l.eraseIdx i).length = l.length - 1 := by
  intro l
  induction l with
  | nil => intro i h; simp at h
  | cons a l ih =>
    intro i h
    cases i with
    | zero => simp
    | succ j =>
      simp only [List.eraseIdx_cons_succ, List.length_cons] at h ⊢
      rw [ih j (by omega)]
      omega

/-- A finite sequence of `cinputs_push` calls. -/
def applyPushes : List (Nat × Int × Int × Nat) → Cinputs → Cinputs
  | [], s => s
  | q :: l, s => applyPushes l (cinputs_push s q.1 q.2.1 q.2.2.1 q.2.2.2)

/-- Characterization of `cinputs_pull_id` on an error-free table: it erases
the first entry whose id matches (nothing when the id is absent). -/
theorem cinputs_pull_id_eq (s : Cinputs) (id : Nat) (he : s.err = Cerr.none) :
    cinputs_pull_id s id =
      {s with slots :=
        match findIndex (fun sl => sl.id == id) s.slots with
        | Option.some i => s.slots.eraseIdx i
        | Option.none => s.slots} := by
  have hfind : cinputs_find s id = findIndex (fun sl => sl.id == id) s.slots := by
    simp [cinputs_find, he]
  rcases hf : findIndex (fun sl => sl.id == id) s.slots with _ | i
  · simp [cinputs_pull_id, hfind, hf]
  · have hi := findIndex_some_lt hf
    have hle : ¬ s.slots.length ≤ i := by omega
    simp [cinputs_pull_id, hfind, hf, cinputs_pull_index, he, hle]

/-- One `cinputs_push` preserves id-uniqueness. -/
theorem cinputs_push_nodup_step (s : Cinputs) (id : Nat) (x y : Int) (p : Nat)
    (h : (s.slots.map Slot.id).Nodup) :
    ((cinputs_push s id x y p).slots.map Slot.id).Nodup := by
  by_cases he : s.err = Cerr.none
  · rw [cinputs_push, if_neg (by simp [he])]
    rw [cinputs_pull_id_eq s id he]
    rcases hf : findIndex (fun sl => sl.id == id) s.slots with _ | i
    · simp only [hf]
      by_cases hcap : s.n_alloc ≤ s.slots.length
      · simpa [hcap] using h
      · simp only [hcap, if_false, List.map_append, List.map_cons, List.map_nil]
        exact nodup_concat h (not_mem_ids_of_findIndex_none hf)
    · simp only [hf]
      have h1 : ((s.slots.eraseIdx i).map Slot.id).Nodup := by
        rw [map_eraseIdx]
        exact nodup_eraseIdx h i
      by_cases hcap : s.n_alloc ≤ (s.slots.eraseIdx i).length
      · simpa [hcap] using h1
      · simp only [hcap, if_false, List.map_append, List.map_cons, List.map_nil]
        exact nodup_concat h1 (erase_first_not_mem h hf)
  · rw [cinputs_push, if_pos (by simp [he])]
    exact h

/-- C2: starting from any slot table whose live ids are pairwise distinct
(as every table built through the API is), after any finite sequence of
pushes the live ids are still pairwise distinct and `find` has exactly one
match per present id; moreover a push of an already-present id on an
error-free table with `n ≤ n_alloc` removes the old entry and appends the
new one. -/
theorem cinputs_push_id_unique (s : Cinputs) (l : List (Nat × Int × Int × Nat))
    (h : (s.slots.map Slot.id).Nodup) :
    ((applyPushes l s).slots.map Slot.id).Nodup ∧
    (∀ id ∈ (applyPushes l s).slots.map Slot.id,
        ((applyPushes l s).slots.map Slot.id).count id = 1) ∧
    (∀ id x y p, s.err = Cerr.none → id ∈ s.slots.map Slot.id →
        s.slots.length ≤ s.n_alloc →
        (cinputs_push s id x y p).slots =
          s.slots.eraseP (fun sl => sl.id == id) ++ [⟨id, toInt16 x, toInt16 y, p⟩]) := by
  have key : ∀ (l : List (Nat × Int × Int × Nat)) (t : Cinputs),
      (t.slots.map Slot.id).Nodup → ((applyPushes l t).slots.map Slot.id).Nodup := by
    intro l
    induction l with
    | nil => intro t ht; exact ht
    | cons q l ih =>
      intro t ht
      exact ih _ (cinputs_push_nodup_step t q.1 q.2.1 q.2.2.1 q.2.2.2 ht)
  refine ⟨key l s h, fun id hm => nodup_count_one (key l s h) hm, ?_⟩
  intro id x y p he hmem hlen
  obtain ⟨i, hf⟩ := findIndex_ids_some_of_mem hmem
  have hi := findIndex_some_lt hf
  have hpos : 0 < s.slots.length := by omega
  have hlen1 : (s.slots.eraseIdx i).length = s.slots.length - 1 :=
    length_eraseIdx_eq s.slots i hi
  rw [cinputs_push, if_neg (by simp [he]), cinputs_pull_id_eq s id he]
  simp only [hf]
  have hcap : ¬ s.n_alloc ≤ (s.slots.eraseIdx i).length := by
    rw [hlen1]
    omega
  simp only [hcap, if_false]
  rw [findIndex_eraseIdx_eraseP hf]

theorem cinputs_push_id_unique_witness :
    ((applyPushes [(1, 0, 0, 5), (2, 0, 0, 6), (1, 7, 8, 9)]
        (cinputs_create 2)).slots.map Slot.id).Nodup ∧
    ((applyPushes [(1, 0, 0, 5), (2, 0, 0, 6), (1, 7, 8, 9)]
        (cinputs_create 2)).slots.map Slot.id).count 1 = 1 ∧
    (cinputs_push (cinputs_push (cinputs_create 2) 1 0 0 5) 1 7 8 9).slots =
      [⟨1, 7, 8, 9⟩] := by
  have h := cinputs_push_id_unique (cinputs_create 2)
    [(1, 0, 0, 5), (2, 0, 0, 6), (1, 7, 8, 9)] (by decide)
  have h2 := cinputs_push_id_unique (cinputs_push (cinputs_create 2) 1 0 0 5) []
    (by decide)
  refine ⟨h.1, h.2.1 1 (by decide), ?_⟩
  rw [h2.2.2 1 7 8 9 (by decide) (by decide) (by decide)]
  decide

/-! ## Claim C8: overflow-checked growth leaves prior state intact -/

/-- C8: a resize or growth request whose element count times element size
exceeds the platform size limit sets `CERR_OVERFLOW` and changes nothing
else — the slot-table `resize`, the registry `grow` (reached through
`cref_prealloc`) and the arena `grow` (reached through `cbook_prealloc`,
covering both the word-index and group-index products) all abort before
mutating lengths, capacities or stored entries. -/
theorem grow_overflow_state_intact
    (s1 : Cinputs) (n1 : Nat) (s2 : Cref) (n2 : Nat) (s3 : Cbook) (nb nw ng : Nat)
    (h1e : s1.err = Cerr.none) (h1o : ¬ n1 * sizeofInputsSlot ≤ SIZE_MAX)
    (h2e : s2.err = Cerr.none) (h2g : s2.n_alloc < n2)
    (h2o : ¬ n2 * sizeofRefSlot ≤ SIZE_MAX)
    (h3e : s3.err = Cerr.none)
    (h3o : ¬ (nw * sizeofSizeT ≤ SIZE_MAX ∧ ng * sizeofSizeT ≤ SIZE_MAX)) :
    cinputs_resize s1 n1 = {s1 with err := Cerr.overflow} ∧
    cref_prealloc s2 n2 = {s2 with err := Cerr.overflow} ∧
    cbook_prealloc s3 nb nw ng = {s3 with err := Cerr.overflow} := by
  refine ⟨?_, ?_, ?_⟩
  · have hn1 : ¬ n1 = 0 := by
      intro h
      apply h1o
      simp [h]
    simp [cinputs_resize, h1e, cinputsResize, hn1, safe_mul, h1o]
  · have hgt : ¬ n2 ≤ s2.n_alloc := by omega
    simp [cref_prealloc, h2e, crefGrow, hgt, safe_mul, h2o]
  · have hcond : ¬ s3.err ≠ Cerr.none := by simp [h3e]
    have hg : ¬ (safe_mul nw sizeofSizeT = true ∧ safe_mul ng sizeofSizeT = true) := by
      simpa [safe_mul] using h3o
    rw [cbook_prealloc, if_neg hcond, cbookGrow, if_pos hg]

theorem grow_overflow_state_intact_witness :
    cinputs_resize (cinputs_create 1) (2 ^ 62) =
      {cinputs_create 1 with err := Cerr.overflow} ∧
    cref_prealloc cref_create (2 ^ 62) = {cref_create with err := Cerr.overflow} ∧
    cbook_prealloc cbook_create 0 (2 ^ 62) 1 =
      {cbook_create with err := Cerr.overflow} := by
  exact grow_overflow_state_intact (cinputs_create 1) (2 ^ 62) cref_create (2 ^ 62)
    cbook_create 0 (2 ^ 62) 1 (by decide) (by decide) (by decide) (by decide)
    (by decide) (by decide) (by decide)

/-! ## Claim C4: reference counting in the registry -/

theorem rslot_ptrs_false {L : List RSlot} {p : Nat} (habs : p ∉ L.map RSlot.ptr) :
    ∀ a ∈ L, (a.ptr == p) = false := by
  intro a ha
  simp only [beq_eq_false_iff_ne, ne_eq]
  intro hc
  exact habs (hc ▸ List.mem_map_of_mem RSlot.ptr ha)

/-- `cref_find` on a registry whose last entry is `⟨p, r⟩` and whose other
entries do not mention `p`. -/
theorem cref_find_concat {L : List RSlot} {p r : Nat} {s : Cref}
    (hs : s.slots = L ++ [⟨p, r⟩]) (he : s.err = Cerr.none)
    (habs : p ∉ L.map RSlot.ptr) :
    cref_find s p = r := by
  have hfi : findIndex (fun sl => sl.ptr == p) s.slots = Option.some L.length := by
    rw [hs, findIndex_append_singleton (rslot_ptrs_false habs)]
    simp
  have hget : s.slots.getD L.length ⟨0, 0⟩ = ⟨p, r⟩ := by
    rw [hs]
    exact getD_append_self
  simp only [List.getD, List.get?_eq_getElem?] at hget
  simp [cref_find, he, hfi, hget]

/-- `cref_find` when `p` is absent. -/
theorem cref_find_absent {s : Cref} {p : Nat} (he : s.err = Cerr.none)
    (habs : p ∉ s.slots.map RSlot.ptr) :
    cref_find s p = 0 := by
  have hfi : findIndex (fun sl => sl.ptr == p) s.slots = Option.none :=
    findIndex_none_iff.mpr (rslot_ptrs_false habs)
  simp [cref_find, he, hfi]

/-- A `cref_push` of an absent pointer appends a count-1 entry (growing the
capacity when the table is full; the hypotheses make the growth succeed,
as it does whenever C's `realloc` succeeds). -/
theorem cref_push_new {s : Cref} {p : Nat}
    (he : s.err = Cerr.none) (habs : p ∉ s.slots.map RSlot.ptr)
    (hlen : s.slots.length ≤ s.n_alloc) (hal : 1 ≤ s.n_alloc)
    (hsz : 2 * s.n_alloc * sizeofRefSlot ≤ SIZE_MAX) :
    ∃ na, cref_push s p = {s with slots := s.slots ++ [⟨p, 1⟩], n_alloc := na} := by
  have hfind : cref_find s p = 0 := cref_find_absent he habs
  rw [cref_push, if_neg (by simp [he]), if_neg (by simp [hfind])]
  by_cases hc : s.n_alloc ≤ s.slots.length
  · rw [if_pos hc]
    have hm1 : safe_mul s.n_alloc 2 = true := by
      simp only [safe_mul, decide_eq_true_eq]
      have h1 : s.n_alloc * 2 ≤ s.n_alloc * 2 * sizeofRefSlot := by
        have : 1 ≤ sizeofRefSlot := by simp [sizeofRefSlot]
        exact Nat.le_mul_of_pos_right _ (by omega)
      have h2 : s.n_alloc * 2 * sizeofRefSlot = 2 * s.n_alloc * sizeofRefSlot := by ring
      omega
    rw [if_neg (by simp [hm1])]
    have hm2 : safe_mul (s.n_alloc * 2) sizeofRefSlot = true := by
      simp only [safe_mul, decide_eq_true_eq]
      have h2 : s.n_alloc * 2 * sizeofRefSlot = 2 * s.n_alloc * sizeofRefSlot := by ring
      omega
    have hgrow : crefGrow s (s.n_alloc * 2) = ({s with n_alloc := s.n_alloc * 2}, true) := by
      rw [crefGrow, if_neg (by omega), if_neg (by simp [hm2])]
    refine ⟨s.n_alloc * 2, ?_⟩
    simp [hgrow]
  · rw [if_neg hc]
    exact ⟨s.n_alloc, rfl⟩

/-- A `cref_push` of a present pointer (stored as the last entry, count
`r < UINT_MAX`) just increments its count. -/
theorem cref_push_found {L : List RSlot} {p r : Nat} {s : Cref}
    (hs : s.slots = L ++ [⟨p, r⟩]) (he : s.err = Cerr.none)
    (habs : p ∉ L.map RSlot.ptr) (hr : 1 ≤ r) (hmax : r < UINT_MAX) :
    cref_push s p = {s with slots := L ++ [⟨p, r + 1⟩]} := by
  have hfi : findIndex (fun sl => sl.ptr == p) s.slots = Option.some L.length := by
    rw [hs, findIndex_append_singleton (rslot_ptrs_false habs)]
    simp
  have hget : s.slots.getD L.length ⟨0, 0⟩ = ⟨p, r⟩ := by
    rw [hs]
    exact getD_append_self
  have hfind : cref_find s p = r := cref_find_concat hs he habs
  have hidx : crefFindIndex s p = L.length := by
    simp [crefFindIndex, hfi]
  rw [cref_push, if_neg (by simp [he]), if_pos (by rw [hfind]; omega)]
  simp only [hidx, hget]
  rw [if_neg (by omega : ¬ r = UINT_MAX)]
  rw [hs, set_append_self]

/-- Iterated pushes of a pointer stored as the last entry. -/
theorem crefPushN_found (j : Nat) :
    ∀ (s : Cref) (L : List RSlot) (p r : Nat),
      s.slots = L ++ [⟨p, r⟩] → s.err = Cerr.none → p ∉ L.map RSlot.ptr →
      1 ≤ r → r + j ≤ UINT_MAX →
      (crefPushN j s p).slots = L ++ [⟨p, r + j⟩] ∧
      (crefPushN j s p).err = Cerr.none := by
  induction j with
  | zero =>
    intro s L p r hs he habs hr hj
    exact ⟨hs, he⟩
  | succ j ih =>
    intro s L p r hs he habs hr hj
    have hstep := cref_push_found hs he habs hr (by omega)
    show (crefPushN j (cref_push s p) p).slots = L ++ [⟨p, r + (j + 1)⟩] ∧
      (crefPushN j (cref_push s p) p).err = Cerr.none
    rw [hstep]
    have := ih {s with slots := L ++ [⟨p, r + 1⟩]} L p (r + 1) rfl he habs (by omega)
      (by omega)
    rw [show r + (j + 1) = r + 1 + j by omega]
    exact this

/-- One `cref_pull_ptr` of a pointer stored as the last entry: decrements
the count when it stays positive, removes the entry otherwise. -/
theorem cref_pull_ptr_found {L : List RSlot} {p r : Nat} {s : Cref}
    (hs : s.slots = L ++ [⟨p, r⟩]) (he : s.err = Cerr.none)
    (habs : p ∉ L.map RSlot.ptr) (hr : 1 ≤ r) :
    cref_pull_ptr s p =
      if 1 < r then {s with slots := L ++ [⟨p, r - 1⟩]}
      else {s with slots := L} := by
  have hfi : findIndex (fun sl => sl.ptr == p) s.slots = Option.some L.length := by
    rw [hs, findIndex_append_singleton (rslot_ptrs_false habs)]
    simp
  have hget : s.slots.getD L.length ⟨0, 0⟩ = ⟨p, r⟩ := by
    rw [hs]
    exact getD_append_self
  have hfind : cref_find s p = r := cref_find_concat hs he habs
  have hidx : crefFindIndex s p = L.length := by
    simp [crefFindIndex, hfi]
  have hlt : ¬ s.slots.length ≤ L.length := by
    rw [hs]
    simp
  rw [cref_pull_ptr, if_pos (by rw [hfind]; omega), hidx,
    cref_pull_index, if_neg (by push_neg; exact ⟨by simp [he], by omega⟩)]
  simp only [hget]
  rw [decRef, if_neg (by omega : ¬ r = 0)]
  by_cases h1 : 1 < r
  · rw [if_pos (by omega : 0 < r - 1), if_pos h1]
    rw [hs, set_append_self]
  · rw [if_neg (by omega : ¬ 0 < r - 1), if_neg h1]
    rw [crefPull, hs, eraseIdx_append_self]

/-- Iterated pulls of a pointer stored as the last entry. -/
theorem crefPullN_found (j : Nat) :
    ∀ (s : Cref) (L : List RSlot) (p r : Nat),
      s.slots = L ++ [⟨p, r⟩] → s.err = Cerr.none → p ∉ L.map RSlot.ptr →
      j ≤ r → 1 ≤ r →
      (crefPullN j s p).slots = (if j < r then L ++ [⟨p, r - j⟩] else L) ∧
      (crefPullN j s p).err = Cerr.none := by
  induction j with
  | zero =>
    intro s L p r hs he habs hj hr
    rw [if_pos (by omega : 0 < r)]
    refine ⟨?_, he⟩
    simpa using hs
  | succ j ih =>
    intro s L p r hs he habs hj hr
    have hstep := cref_pull_ptr_found hs he habs hr
    show (crefPullN j (cref_pull_ptr s p) p).slots =
        (if j + 1 < r then L ++ [⟨p, r - (j + 1)⟩] else L) ∧
      (crefPullN j (cref_pull_ptr s p) p).err = Cerr.none
    rw [hstep]
    by_cases h1 : 1 < r
    · rw [if_pos h1]
      have := ih {s with slots := L ++ [⟨p, r - 1⟩]} L p (r - 1) rfl he habs (by omega)
        (by omega)
      rcases this with ⟨ha, hb⟩
      refine ⟨?_, hb⟩
      rw [ha]
      by_cases h2 : j < r - 1
      · rw [if_pos h2, if_pos (by omega : j + 1 < r),
          show r - 1 - j = r - (j + 1) by omega]
      · rw [if_neg h2, if_neg (by omega : ¬ j + 1 < r)]
    · rw [if_neg h1]
      have hr1 : r = 1 := by omega
      have hj0 : j = 0 := by omega
      subst hr1
      subst hj0
      rw [if_neg (by omega : ¬ 0 + 1 < 1)]
      exact ⟨rfl, he⟩

/-- C4: from an error-free registry that does not yet hold `p` (with
room-to-grow hypotheses that C discharges via `realloc`), `k` pushes of `p`
make `find p` report `k`; one `pull_ptr p` lowers it to `k - 1`; `k` pulls
remove the entry entirely so `find p` reports 0. -/
theorem cref_push_pull_count (s : Cref) (p k : Nat)
    (he : s.err = Cerr.none) (habs : p ∉ s.slots.map RSlot.ptr)
    (hk1 : 1 ≤ k) (hk2 : k ≤ UINT_MAX)
    (hlen : s.slots.length ≤ s.n_alloc) (hal : 1 ≤ s.n_alloc)
    (hsz : 2 * s.n_alloc * sizeofRefSlot ≤ SIZE_MAX) :
    cref_find (crefPushN k s p) p = k ∧
    cref_find (cref_pull_ptr (crefPushN k s p) p) p = k - 1 ∧
    cref_find (crefPullN k (crefPushN k s p) p) p = 0 := by
  obtain ⟨m, rfl⟩ : ∃ m, k = m + 1 := ⟨k - 1, by omega⟩
  obtain ⟨na, hpush1⟩ := cref_push_new he habs hlen hal hsz
  have hTs : crefPushN (m + 1) s p = crefPushN m (cref_push s p) p := rfl
  have hT := crefPushN_found m (cref_push s p) s.slots p 1
    (by rw [hpush1]) (by rw [hpush1]; exact he) habs (by omega) (by omega)
  rw [hTs]
  rcases hT with ⟨hTslots, hTerr⟩
  rw [show 1 + m = m + 1 by omega] at hTslots
  have hfind1 : cref_find (crefPushN m (cref_push s p) p) p = m + 1 :=
    cref_find_concat hTslots hTerr habs
  refine ⟨hfind1, ?_, ?_⟩
  · have hpull := cref_pull_ptr_found hTslots hTerr habs (by omega)
    rw [hpull]
    by_cases h1 : 1 < m + 1
    · rw [if_pos h1]
      exact cref_find_concat rfl hTerr habs
    · rw [if_neg h1]
      have hm0 : m = 0 := by omega
      subst hm0
      exact cref_find_absent hTerr habs
  · have hpulls := crefPullN_found (m + 1) (crefPushN m (cref_push s p) p)
      s.slots p (m + 1) hTslots hTerr habs (by omega) (by omega)
    rcases hpulls with ⟨ha, hb⟩
    rw [if_neg (by omega : ¬ m + 1 < m + 1)] at ha
    exact cref_find_absent hb (ha ▸ habs)

theorem cref_push_pull_count_witness :
    cref_find (crefPushN 3 cref_create 7) 7 = 3 ∧
    cref_find (cref_pull_ptr (crefPushN 3 cref_create 7) 7) 7 = 2 ∧
    cref_find (crefPullN 3 (crefPushN 3 cref_create 7) 7) 7 = 0 := by
  have h := cref_push_pull_count cref_create 7 3 (by decide) (by decide) (by decide)
    (by decide) (by decide) (by decide) (by decide)
  exact h

/-! ## Claim C1: sticky errors make every operation a no-op -/

theorem applyInputsOp_noop (s : Cinputs) (hne : s.err ≠ Cerr.none) :
    ∀ op : InputsOp, op ≠ InputsOp.repair → applyInputsOp op s = s := by
  intro op hop
  cases op with
  | clear => simp [applyInputsOp, cinputs_clear, hne]
  | push id x y p => simp [applyInputsOp, cinputs_push, hne]
  | pullId id => simp [applyInputsOp, cinputs_pull_id, cinputs_find, hne]
  | pullIndex i => simp [applyInputsOp, cinputs_pull_index, hne]
  | resize n => simp [applyInputsOp, cinputs_resize, hne]
  | setDefaultPtr p => simp [applyInputsOp, cinputs_set_default_ptr, hne]
  | repair => exact absurd rfl hop

theorem applyInputsOps_noop (s : Cinputs) (hne : s.err ≠ Cerr.none) :
    ∀ l : List InputsOp, InputsOp.repair ∉ l → applyInputsOps l s = s := by
  intro l
  induction l with
  | nil => intro _; rfl
  | cons op l ih =>
    intro hmem
    have h1 : op ≠ InputsOp.repair := by
      intro h
      rw [h] at hmem
      exact hmem (List.mem_cons_self _ _)
    have h2 : InputsOp.repair ∉ l := fun h => hmem (List.mem_cons_of_mem op h)
    show applyInputsOps l (applyInputsOp op s) = s
    rw [applyInputsOp_noop s hne op h1]
    exact ih h2

theorem applyRefOp_noop (s : Cref) (hne : s.err ≠ Cerr.none) :
    ∀ op : RefOp, op ≠ RefOp.repair → applyRefOp op s = s := by
  intro op hop
  cases op with
  | clear => simp [applyRefOp, cref_clear, hne]
  | push p => simp [applyRefOp, cref_push, hne]
  | pullIndex i => simp [applyRefOp, cref_pull_index, hne]
  | pullPtr p => simp [applyRefOp, cref_pull_ptr, cref_find, hne]
  | purgeIndex i => simp [applyRefOp, cref_purge_index, hne]
  | purgePtr p => simp [applyRefOp, cref_purge_ptr, cref_find, hne]
  | prealloc n => simp [applyRefOp, cref_prealloc, hne]
  | setDefaultPtr p => simp [applyRefOp, cref_set_default_ptr, hne]
  | repair => exact absurd rfl hop

theorem applyRefOps_noop (s : Cref) (hne : s.err ≠ Cerr.none) :
    ∀ l : List RefOp, RefOp.repair ∉ l → applyRefOps l s = s := by
  intro l
  induction l with
  | nil => intro _; rfl
  | cons op l ih =>
    intro hmem
    have h1 : op ≠ RefOp.repair := by
      intro h
      rw [h] at hmem
      exact hmem (List.mem_cons_self _ _)
    have h2 : RefOp.repair ∉ l := fun h => hmem (List.mem_cons_of_mem op h)
    show applyRefOps l (applyRefOp op s) = s
    rw [applyRefOp_noop s hne op h1]
    exact ih h2

theorem applyBookOp_noop (s : Cbook) (hne : s.err ≠ Cerr.none) :
    ∀ op : BookOp, op ≠ BookOp.repair → applyBookOp op s = s := by
  intro op hop
  cases op with
  | write b => simp [applyBookOp, cbook_write, hne]
  | popWord => simp [applyBookOp, cbook_pop_word, hne]
  | popGroup => simp [applyBookOp, cbook_pop_group, hne]
  | prepareNewGroup => simp [applyBookOp, cbook_prepare_new_group, hne]
  | undoNewGroup => simp [applyBookOp, cbook_undo_new_group, hne]
  | prealloc nb nw ng => simp [applyBookOp, cbook_prealloc, hne]
  | clear => simp [applyBookOp, cbook_clear, hne]
  | zero => simp [applyBookOp, cbook_zero, hne]
  | repair => exact absurd rfl hop

theorem applyBookOps_noop (s : Cbook) (hne : s.err ≠ Cerr.none) :
    ∀ l : List BookOp, BookOp.repair ∉ l → applyBookOps l s = s := by
  intro l
  induction l with
  | nil => intro _; rfl
  | cons op l ih =>
    intro hmem
    have h1 : op ≠ BookOp.repair := by
      intro h
      rw [h] at hmem
      exact hmem (List.mem_cons_self _ _)
    have h2 : BookOp.repair ∉ l := fun h => hmem (List.mem_cons_of_mem op h)
    show applyBookOps l (applyBookOp op s) = s
    rw [applyBookOp_noop s hne op h1]
    exact ih h2

/-- C1: on any container whose stored error is `PARAM`, `OVERFLOW` or
`MEMORY`, every public mutating operation other than `repair` leaves the
state unchanged (and therefore any sequence of such calls does), and every
reading operation returns its type-appropriate default: `false`/absent for
`find`, 0 for counters and lengths, the configured default for pointer
accessors, the empty string for word accessors, and the placeholder for
`clone`. -/
theorem err_stickiness_noop
    (s1 : Cinputs) (s2 : Cref) (s3 : Cbook)
    (h1 : s1.err = Cerr.param ∨ s1.err = Cerr.overflow ∨ s1.err = Cerr.memory)
    (h2 : s2.err = Cerr.param ∨ s2.err = Cerr.overflow ∨ s2.err = Cerr.memory)
    (h3 : s3.err = Cerr.param ∨ s3.err = Cerr.overflow ∨ s3.err = Cerr.memory) :
    (∀ l : List InputsOp, InputsOp.repair ∉ l → applyInputsOps l s1 = s1) ∧
    (∀ id, cinputs_find s1 id = Option.none) ∧
    (∀ i, cinputs_id s1 i = 0 ∧ cinputs_x s1 i = 0 ∧ cinputs_y s1 i = 0 ∧
      cinputs_ptr s1 i = s1.default_ptr) ∧
    cinputs_load s1 = 0 ∧
    cinputs_clone s1 = cinputs_placeholder ∧
    (∀ l : List RefOp, RefOp.repair ∉ l → applyRefOps l s2 = s2) ∧
    (∀ p, cref_find s2 p = 0) ∧
    cref_length s2 = 0 ∧
    (∀ i, cref_count s2 i = 0 ∧ cref_ptr s2 i = s2.default_ptr) ∧
    cref_clone s2 = cref_placeholder ∧
    (∀ l : List BookOp, BookOp.repair ∉ l → applyBookOps l s3 = s3) ∧
    cbook_length s3 = 0 ∧ cbook_words_number s3 = 0 ∧ cbook_groups_number s3 = 0 ∧
    (∀ i, cbook_group_length s3 i = 0 ∧ cbook_word s3 i = []) ∧
    (∀ g i, cbook_word_in_group s3 g i = [] ∧ cbook_word_index s3 g i = 0) ∧
    cbook_clone s3 = cbook_placeholder := by
  have hne1 : s1.err ≠ Cerr.none := by rcases h1 with h | h | h <;> simp [h]
  have hne2 : s2.err ≠ Cerr.none := by rcases h2 with h | h | h <;> simp [h]
  have hne3 : s3.err ≠ Cerr.none := by rcases h3 with h | h | h <;> simp [h]
  refine ⟨applyInputsOps_noop s1 hne1, ?_, ?_, ?_, ?_,
    applyRefOps_noop s2 hne2, ?_, ?_, ?_, ?_,
    applyBookOps_noop s3 hne3, ?_, ?_, ?_, ?_, ?_, ?_⟩
  · intro id
    simp [cinputs_find, hne1]
  · intro i
    refine ⟨?_, ?_, ?_, ?_⟩ <;>
      simp [cinputs_id, cinputs_x, cinputs_y, cinputs_ptr, hne1]
  · simp [cinputs_load, hne1]
  · simp [cinputs_clone, hne1]
  · intro p
    simp [cref_find, hne2]
  · simp [cref_length, hne2]
  · intro i
    exact ⟨by simp [cref_count, hne2], by simp [cref_ptr, hne2]⟩
  · simp [cref_clone, hne2]
  · simp [cbook_length, hne3]
  · simp [cbook_words_number, hne3]
  · simp [cbook_groups_number, hne3]
  · intro i
    exact ⟨by simp [cbook_group_length, hne3], by simp [cbook_word, hne3]⟩
  · intro g i
    exact ⟨by simp [cbook_word_in_group, hne3], by simp [cbook_word_index, hne3]⟩
  · simp [cbook_clone, hne3]

theorem err_stickiness_noop_witness :
    applyInputsOps [InputsOp.push 1 2 3 4, InputsOp.clear, InputsOp.resize 5]
      ⟨[⟨1, 2, 3, 4⟩], 1, 9, Cerr.param⟩ = ⟨[⟨1, 2, 3, 4⟩], 1, 9, Cerr.param⟩ ∧
    cinputs_ptr ⟨[⟨1, 2, 3, 4⟩], 1, 9, Cerr.param⟩ 0 = 9 ∧
    applyRefOps [RefOp.push 5, RefOp.pullPtr 5] ⟨[⟨5, 2⟩], 1, 8, Cerr.overflow⟩ =
      ⟨[⟨5, 2⟩], 1, 8, Cerr.overflow⟩ ∧
    applyBookOps [BookOp.write [97], BookOp.popWord]
      ⟨[97, 0], [0], [0], 2, 1, 1, false, Cerr.memory⟩ =
      ⟨[97, 0], [0], [0], 2, 1, 1, false, Cerr.memory⟩ := by
  have h := err_stickiness_noop ⟨[⟨1, 2, 3, 4⟩], 1, 9, Cerr.param⟩
    ⟨[⟨5, 2⟩], 1, 8, Cerr.overflow⟩ ⟨[97, 0], [0], [0], 2, 1, 1, false, Cerr.memory⟩
    (by decide) (by decide) (by decide)
  exact ⟨h.1 _ (by decide), (h.2.2.1 0).2.2.2, h.2.2.2.2.2.1 _ (by decide),
    h.2.2.2.2.2.2.2.2.2.2.1 _ (by decide)⟩

/-! ## Case-analysis lemmas for the growth helpers -/

theorem growCharsAux_some :
    ∀ (fuel ns nchars nc r : Nat), growCharsAux fuel ns nchars nc = Option.some r →
      ns ≤ r - nchars ∧ nc ≤ r := by
  intro fuel
  induction fuel with
  | zero =>
    intro ns nchars nc r h
    simp [growCharsAux] at h
  | succ fuel ih =>
    intro ns nchars nc r h
    rw [growCharsAux] at h
    by_cases h1 : ns ≤ nc - nchars
    · rw [if_pos h1] at h
      cases h
      exact ⟨h1, Nat.le_refl _⟩
    · rw [if_neg h1] at h
      by_cases h2 : ¬ safe_mul nc 2
      · rw [if_pos h2] at h
        cases h
      · rw [if_neg h2] at h
        have := ih ns nchars (nc * 2) r h
        exact ⟨this.1, by omega⟩

theorem crefGrow_spec (s : Cref) (n : Nat) :
    (crefGrow s n = (s, true) ∧ n ≤ s.n_alloc) ∨
    (crefGrow s n = ({s with err := Cerr.overflow}, false) ∧ s.n_alloc < n) ∨
    (crefGrow s n = ({s with n_alloc := n}, true) ∧ s.n_alloc < n) := by
  by_cases h1 : n ≤ s.n_alloc
  · exact Or.inl ⟨by rw [crefGrow, if_pos h1], h1⟩
  · by_cases h2 : ¬ safe_mul n sizeofRefSlot
    · exact Or.inr (Or.inl ⟨by rw [crefGrow, if_neg h1, if_pos h2], by omega⟩)
    · exact Or.inr (Or.inr ⟨by rw [crefGrow, if_neg h1, if_neg h2], by omega⟩)

theorem cbookGrow_spec (s : Cbook) (nc nw ng : Nat) :
    (¬ (nw * sizeofSizeT ≤ SIZE_MAX ∧ ng * sizeofSizeT ≤ SIZE_MAX) ∧
      cbookGrow s nc nw ng = ({s with err := Cerr.overflow}, false)) ∨
    ((nw * sizeofSizeT ≤ SIZE_MAX ∧ ng * sizeofSizeT ≤ SIZE_MAX) ∧
      cbookGrow s nc nw ng =
        ({s with
            n_alloc_chars := if s.n_alloc_chars < nc then nc else s.n_alloc_chars,
            n_alloc_words := if s.n_alloc_words < nw then nw else s.n_alloc_words,
            n_alloc_groups := if s.n_alloc_groups < ng then ng else s.n_alloc_groups},
          true)) := by
  by_cases hok : nw * sizeofSizeT ≤ SIZE_MAX ∧ ng * sizeofSizeT ≤ SIZE_MAX
  · refine Or.inr ⟨hok, ?_⟩
    rw [cbookGrow, if_neg (by simp [safe_mul, hok.1, hok.2])]
  · refine Or.inl ⟨hok, ?_⟩
    rw [cbookGrow, if_pos (by simpa [safe_mul] using hok)]

theorem le_if_lt_left (a b : Nat) : a ≤ if a < b then b else a := by
  by_cases h : a < b
  · rw [if_pos h]
    omega
  · rw [if_neg h]

theorem le_if_lt_right (a b : Nat) : b ≤ if a < b then b else a := by
  by_cases h : a < b
  · rw [if_pos h]
  · rw [if_neg h]
    omega

/-- Full case analysis of `cbook_write` on an error-free arena with sane
capacity bookkeeping: either some size computation overflowed and only the
error field changed, or the word was appended (opening a group when
`new_group` was set) and the three capacities still bound the three
lengths. -/
theorem cbook_write_cases (s : Cbook) (b : List Nat)
    (he : s.err = Cerr.none)
    (hic : s.chars.length ≤ s.n_alloc_chars)
    (hiw : s.words.length ≤ s.n_alloc_words) (h1w : 1 ≤ s.n_alloc_words)
    (hig : s.groups.length ≤ s.n_alloc_groups) (h1g : 1 ≤ s.n_alloc_groups) :
    cbook_write s b = {s with err := Cerr.overflow} ∨
    ((cbook_write s b).err = Cerr.none ∧
      (cbook_write s b).chars = s.chars ++ b ++ [0] ∧
      (cbook_write s b).words = s.words ++ [s.chars.length] ∧
      (cbook_write s b).groups =
        s.groups ++ (if s.new_group then [s.words.length] else []) ∧
      (cbook_write s b).new_group = false ∧
      (cbook_write s b).chars.length ≤ (cbook_write s b).n_alloc_chars ∧
      (cbook_write s b).words.length ≤ (cbook_write s b).n_alloc_words ∧
      (cbook_write s b).groups.length ≤ (cbook_write s b).n_alloc_groups ∧
      1 ≤ (cbook_write s b).n_alloc_chars ∧
      1 ≤ (cbook_write s b).n_alloc_words ∧
      1 ≤ (cbook_write s b).n_alloc_groups) := by
  rcases hloop : growCharsLoop (b.length + 1) s.chars.length s.n_alloc_chars with _ | nc
  · left
    simp only [cbook_write, if_neg (by simp [he] : ¬ s.err ≠ Cerr.none), hloop]
  · have hns := growCharsAux_some 65 (b.length + 1) s.chars.length s.n_alloc_chars nc hloop
    rcases cbookGrow_spec s nc
        (s.n_alloc_words * (if s.n_alloc_words ≤ s.words.length then 2 else 1))
        (s.n_alloc_groups * (if s.n_alloc_groups ≤ s.groups.length then 2 else 1))
      with ⟨hbad, hgeq⟩ | ⟨hok, hgeq⟩
    · left
      simp only [cbook_write, if_neg (by simp [he] : ¬ s.err ≠ Cerr.none), hloop, hgeq]
      simp
    · right
      have hwEq : cbook_write s b =
          (let g1 : Cbook :=
            {s with
              n_alloc_chars := if s.n_alloc_chars < nc then nc else s.n_alloc_chars,
              n_alloc_words :=
                if s.n_alloc_words <
                    s.n_alloc_words * (if s.n_alloc_words ≤ s.words.length then 2 else 1)
                  then s.n_alloc_words * (if s.n_alloc_words ≤ s.words.length then 2 else 1)
                  else s.n_alloc_words,
              n_alloc_groups :=
                if s.n_alloc_groups <
                    s.n_alloc_groups * (if s.n_alloc_groups ≤ s.groups.length then 2 else 1)
                  then s.n_alloc_groups * (if s.n_alloc_groups ≤ s.groups.length then 2 else 1)
                  else s.n_alloc_groups}
           let s2 : Cbook :=
            if g1.new_group then
              {g1 with groups := g1.groups ++ [g1.words.length], new_group := false}
            else g1
           {s2 with
             words := s2.words ++ [s2.chars.length]
             chars := s2.chars ++ b ++ [0]}) := by
        simp only [cbook_write, if_neg (by simp [he] : ¬ s.err ≠ Cerr.none), hloop, hgeq,
          if_true]
      have hACge := le_if_lt_right s.n_alloc_chars nc
      have hAWge1 := le_if_lt_left s.n_alloc_words
        (s.n_alloc_words * (if s.n_alloc_words ≤ s.words.length then 2 else 1))
      have hAWge2 := le_if_lt_right s.n_alloc_words
        (s.n_alloc_words * (if s.n_alloc_words ≤ s.words.length then 2 else 1))
      have hAGge1 := le_if_lt_left s.n_alloc_groups
        (s.n_alloc_groups * (if s.n_alloc_groups ≤ s.groups.length then 2 else 1))
      have hAGge2 := le_if_lt_right s.n_alloc_groups
        (s.n_alloc_groups * (if s.n_alloc_groups ≤ s.groups.length then 2 else 1))
      by_cases hflag : s.new_group = true
      · have hwEq2 : cbook_write s b =
            {chars := s.chars ++ b ++ [0]
             words := s.words ++ [s.chars.length]
             groups := s.groups ++ [s.words.length]
             n_alloc_chars := if s.n_alloc_chars < nc then nc else s.n_alloc_chars
             n_alloc_words := if s.n_alloc_words <
                 s.n_alloc_words * (if s.n_alloc_words ≤ s.words.length then 2 else 1) then
                 s.n_alloc_words * (if s.n_alloc_words ≤ s.words.length then 2 else 1)
               else s.n_alloc_words
             n_alloc_groups := if s.n_alloc_groups <
                 s.n_alloc_groups * (if s.n_alloc_groups ≤ s.groups.length then 2 else 1) then
                 s.n_alloc_groups * (if s.n_alloc_groups ≤ s.groups.length then 2 else 1)
               else s.n_alloc_groups
             new_group := false
             err := s.err} := by
          rw [hwEq]
          simp [hflag]
        rw [hwEq2]
        refine ⟨he, rfl, rfl, by simp [hflag], rfl, ?_, ?_, ?_, ?_, ?_, ?_⟩
        · show (s.chars ++ b ++ [0]).length ≤ _
          simp only [List.length_append, List.length_cons, List.length_nil]
          omega
        · show (s.words ++ [s.chars.length]).length ≤ _
          simp only [List.length_append, List.length_cons, List.length_nil]
          by_cases hw2 : s.n_alloc_words ≤ s.words.length
          · rw [if_pos hw2] at hAWge2 ⊢
            omega
          · omega
        · show (s.groups ++ [s.words.length]).length ≤ _
          simp only [List.length_append, List.length_cons, List.length_nil]
          by_cases hg2 : s.n_alloc_groups ≤ s.groups.length
          · rw [if_pos hg2] at hAGge2 ⊢
            omega
          · omega
        · have hnc1 : 1 ≤ nc := by omega
          exact le_trans hnc1 hACge
        · exact le_trans h1w hAWge1
        · exact le_trans h1g hAGge1
      · have hflag2 : s.new_group = false := by
          cases hng : s.new_group
          · rfl
          · exact absurd hng hflag
        have hwEq2 : cbook_write s b =
            {chars := s.chars ++ b ++ [0]
             words := s.words ++ [s.chars.length]
             groups := s.groups
             n_alloc_chars := if s.n_alloc_chars < nc then nc else s.n_alloc_chars
             n_alloc_words := if s.n_alloc_words <
                 s.n_alloc_words * (if s.n_alloc_words ≤ s.words.length then 2 else 1) then
                 s.n_alloc_words * (if s.n_alloc_words ≤ s.words.length then 2 else 1)
               else s.n_alloc_words
             n_alloc_groups := if s.n_alloc_groups <
                 s.n_alloc_groups * (if s.n_alloc_groups ≤ s.groups.length then 2 else 1) then
                 s.n_alloc_groups * (if s.n_alloc_groups ≤ s.groups.length then 2 else 1)
               else s.n_alloc_groups
             new_group := s.new_group
             err := s.err} := by
          rw [hwEq]
          simp [hflag2]
        rw [hwEq2]
        refine ⟨he, rfl, rfl, by simp [hflag2], hflag2, ?_, ?_, ?_, ?_, ?_, ?_⟩
        · show (s.chars ++ b ++ [0]).length ≤ _
          simp only [List.length_append, List.length_cons, List.length_nil]
          omega
        · show (s.words ++ [s.chars.length]).length ≤ _
          simp only [List.length_append, List.length_cons, List.length_nil]
          by_cases hw2 : s.n_alloc_words ≤ s.words.length
          · rw [if_pos hw2] at hAWge2 ⊢
            omega
          · omega
        · show s.groups.length ≤ (if s.n_alloc_groups <
              s.n_alloc_groups * (if s.n_alloc_groups ≤ s.groups.length then 2 else 1) then
              s.n_alloc_groups * (if s.n_alloc_groups ≤ s.groups.length then 2 else 1)
            else s.n_alloc_groups)
          omega
        · have hnc1 : 1 ≤ nc := by omega
          exact le_trans hnc1 hACge
        · exact le_trans h1w hAWge1
        · exact le_trans h1g hAGge1

/-! ## Claim C10: logical lengths never exceed allocated capacities -/

/-- Invariant of the slot table: the live count fits the capacity. -/
def InputsInv (s : Cinputs) : Prop :=
  s.slots.length ≤ s.n_alloc

/-- Invariant of the registry: the live count fits the capacity, and any
instance that is not the permanently-invalid placeholder has at least one
allocated slot (as `cref_create` guarantees). -/
def RefInv (s : Cref) : Prop :=
  s.slots.length ≤ s.n_alloc ∧ (s.err = Cerr.invalid ∨ 1 ≤ s.n_alloc)

/-- Invariant of the arena: the three logical lengths fit the three
capacities, which are positive away from the placeholder. -/
def BookLenInv (s : Cbook) : Prop :=
  s.chars.length ≤ s.n_alloc_chars ∧ s.words.length ≤ s.n_alloc_words ∧
  s.groups.length ≤ s.n_alloc_groups ∧
  (s.err = Cerr.invalid ∨
    (1 ≤ s.n_alloc_chars ∧ 1 ≤ s.n_alloc_words ∧ 1 ≤ s.n_alloc_groups))

theorem inputsInv_step (s : Cinputs) (h : InputsInv s) (op : InputsOp) :
    InputsInv (applyInputsOp op s) := by
  have hlen : s.slots.length ≤ s.n_alloc := h
  by_cases he : s.err = Cerr.none
  · cases op with
    | clear =>
      show InputsInv (cinputs_clear s)
      rw [cinputs_clear, if_neg (by simp [he])]
      show ([] : List Slot).length ≤ s.n_alloc
      simp
    | push id x y p =>
      show InputsInv (cinputs_push s id x y p)
      rw [cinputs_push, if_neg (by simp [he]), cinputs_pull_id_eq s id he]
      rcases hf : findIndex (fun sl => sl.id == id) s.slots with _ | i
      · simp only [hf]
        split
        · exact h
        · rename_i hcap
          show (s.slots ++ [(⟨id, toInt16 x, toInt16 y, p⟩ : Slot)]).length ≤ s.n_alloc
          rw [List.length_append]
          simp only [List.length_cons, List.length_nil]
          revert hcap
          show ¬ s.n_alloc ≤ s.slots.length → _
          intro hcap
          omega
      · simp only [hf]
        have hle := length_eraseIdx_le s.slots i
        split
        · show (s.slots.eraseIdx i).length ≤ s.n_alloc
          omega
        · rename_i hcap
          show ((s.slots.eraseIdx i) ++ [(⟨id, toInt16 x, toInt16 y, p⟩ : Slot)]).length ≤ s.n_alloc
          rw [List.length_append]
          simp only [List.length_cons, List.length_nil]
          revert hcap
          show ¬ s.n_alloc ≤ (s.slots.eraseIdx i).length → _
          intro hcap
          omega
    | pullId id =>
      show InputsInv (cinputs_pull_id s id)
      rw [cinputs_pull_id_eq s id he]
      rcases hf : findIndex (fun sl => sl.id == id) s.slots with _ | i
      · simp only [hf]
        exact h
      · simp only [hf]
        have hle := length_eraseIdx_le s.slots i
        show (s.slots.eraseIdx i).length ≤ s.n_alloc
        omega
    | pullIndex i =>
      show InputsInv (cinputs_pull_index s i)
      rw [cinputs_pull_index]
      split
      · exact h
      · have hle := length_eraseIdx_le s.slots i
        show (s.slots.eraseIdx i).length ≤ s.n_alloc
        omega
    | resize n =>
      show InputsInv (cinputs_resize s n)
      rw [cinputs_resize, if_neg (by simp [he]), cinputsResize]
      split
      · exact h
      · split
        · exact h
        · show (s.slots.take n).length ≤ n
          rw [List.length_take]
          omega
    | setDefaultPtr p =>
      show InputsInv (cinputs_set_default_ptr s p)
      rw [cinputs_set_default_ptr]
      split
      · exact h
      · exact h
    | repair =>
      show InputsInv (cinputs_repair s)
      rw [cinputs_repair]
      split
      · exact h
      · exact h
  · by_cases hop : op = InputsOp.repair
    · subst hop
      show InputsInv (cinputs_repair s)
      rw [cinputs_repair]
      split
      · exact h
      · exact h
    · rw [applyInputsOp_noop s he op hop]
      exact h

theorem inputsInv_ops (l : List InputsOp) :
    ∀ s, InputsInv s → InputsInv (applyInputsOps l s) := by
  induction l with
  | nil => intro s h; exact h
  | cons op l ih =>
    intro s h
    exact ih _ (inputsInv_step s h op)

theorem inputsInv_create (m : Nat) : InputsInv (cinputs_create m) := by
  rw [cinputs_create, cinputsResize]
  split
  · show InputsInv cinputs_placeholder
    show (0 : Nat) ≤ 0
    omega
  · split
    · show InputsInv cinputs_placeholder
      show (0 : Nat) ≤ 0
      omega
    · show ([] : List Slot).length ≤ m
      simp

theorem refInv_pull_index (s : Cref) (h : RefInv s) (i : Nat) :
    RefInv (cref_pull_index s i) := by
  rw [cref_pull_index]
  split
  · exact h
  · split
    · refine ⟨?_, h.2⟩
      show (s.slots.set i _).length ≤ s.n_alloc
      rw [List.length_set]
      exact h.1
    · refine ⟨?_, h.2⟩
      show (s.slots.eraseIdx i).length ≤ s.n_alloc
      have := length_eraseIdx_le s.slots i
      have h1 := h.1
      omega

theorem refInv_purge_index (s : Cref) (h : RefInv s) (i : Nat) :
    RefInv (cref_purge_index s i) := by
  rw [cref_purge_index]
  split
  · exact h
  · refine ⟨?_, h.2⟩
    show (s.slots.eraseIdx i).length ≤ s.n_alloc
    have := length_eraseIdx_le s.slots i
    have h1 := h.1
    omega

theorem refInv_step (s : Cref) (h : RefInv s) (op : RefOp) :
    RefInv (applyRefOp op s) := by
  have hlen : s.slots.length ≤ s.n_alloc := h.1
  by_cases he : s.err = Cerr.none
  · have hal : 1 ≤ s.n_alloc := by
      rcases h.2 with hi | hi
      · rw [he] at hi
        exact absurd hi (by decide)
      · exact hi
    cases op with
    | clear =>
      show RefInv (cref_clear s)
      rw [cref_clear, if_neg (by simp [he])]
      exact ⟨by simp, h.2⟩
    | push p =>
      show RefInv (cref_push s p)
      rw [cref_push, if_neg (by simp [he])]
      by_cases hf : 0 < cref_find s p
      · rw [if_pos hf]
        split
        · exact ⟨hlen, Or.inr hal⟩
        · refine ⟨?_, Or.inr hal⟩
          show (s.slots.set (crefFindIndex s p) _).length ≤ s.n_alloc
          rw [List.length_set]
          exact hlen
      · rw [if_neg hf]
        split
        · rename_i hcap
          split
          · exact ⟨hlen, Or.inr hal⟩
          · rcases crefGrow_spec s (s.n_alloc * 2) with ⟨hg, hle⟩ | ⟨hg, hlt⟩ | ⟨hg, hlt⟩
            · exact absurd hle (by omega)
            · simp only [hg]
              exact ⟨hlen, Or.inr hal⟩
            · simp only [hg, if_true]
              show RefInv
                {s with
                  slots := s.slots ++ [(⟨p, 1⟩ : RSlot)]
                  n_alloc := s.n_alloc * 2}
              refine ⟨?_, Or.inr (by show 1 ≤ s.n_alloc * 2; omega)⟩
              show (s.slots ++ [(⟨p, 1⟩ : RSlot)]).length ≤ s.n_alloc * 2
              rw [List.length_append]
              simp only [List.length_cons, List.length_nil]
              omega
        · rename_i hcap
          refine ⟨?_, Or.inr hal⟩
          show (s.slots ++ [(⟨p, 1⟩ : RSlot)]).length ≤ s.n_alloc
          rw [List.length_append]
          simp only [List.length_cons, List.length_nil]
          omega
    | pullIndex i => exact refInv_pull_index s h i
    | pullPtr p =>
      show RefInv (cref_pull_ptr s p)
      rw [cref_pull_ptr]
      split
      · exact refInv_pull_index s h _
      · exact h
    | purgeIndex i => exact refInv_purge_index s h i
    | purgePtr p =>
      show RefInv (cref_purge_ptr s p)
      rw [cref_purge_ptr]
      split
      · exact refInv_purge_index s h _
      · exact h
    | prealloc n =>
      show RefInv (cref_prealloc s n)
      rw [cref_prealloc, if_neg (by simp [he])]
      rcases crefGrow_spec s n with ⟨hg, hle⟩ | ⟨hg, hlt⟩ | ⟨hg, hlt⟩
      · rw [hg]
        exact h
      · rw [hg]
        exact ⟨hlen, Or.inr hal⟩
      · rw [hg]
        show RefInv {s with n_alloc := n}
        refine ⟨?_, Or.inr (by show 1 ≤ n; omega)⟩
        show s.slots.length ≤ n
        omega
    | setDefaultPtr p =>
      show RefInv (cref_set_default_ptr s p)
      rw [cref_set_default_ptr]
      split
      · exact h
      · exact ⟨hlen, h.2⟩
    | repair =>
      show RefInv (cref_repair s)
      rw [cref_repair]
      split
      · rename_i hinv
        rcases h.2 with hi | hi
        · exact absurd hi hinv
        · exact ⟨hlen, Or.inr hi⟩
      · exact h
  · by_cases hop : op = RefOp.repair
    · subst hop
      show RefInv (cref_repair s)
      rw [cref_repair]
      split
      · rename_i hinv
        rcases h.2 with hi | hi
        · exact absurd hi hinv
        · exact ⟨hlen, Or.inr hi⟩
      · exact h
    · rw [applyRefOp_noop s he op hop]
      exact h

theorem refInv_ops (l : List RefOp) :
    ∀ s, RefInv s → RefInv (applyRefOps l s) := by
  induction l with
  | nil => intro s h; exact h
  | cons op l ih =>
    intro s h
    exact ih _ (refInv_step s h op)

theorem refInv_create : RefInv cref_create := by
  exact ⟨by simp [cref_create], Or.inr (by simp [cref_create])⟩

theorem bookLenInv_step (s : Cbook) (h : BookLenInv s) (op : BookOp) :
    BookLenInv (applyBookOp op s) := by
  obtain ⟨hc, hw, hg, hpos⟩ := h
  have htake : ∀ n : Nat, (s.chars.take n).length ≤ s.n_alloc_chars := by
    intro n
    rw [List.length_take]
    omega
  have hwtake : ∀ n : Nat, (s.words.take n).length ≤ s.n_alloc_words := by
    intro n
    rw [List.length_take]
    omega
  have hwdrop : s.words.dropLast.length ≤ s.n_alloc_words := by
    rw [List.length_dropLast]
    omega
  have hgdrop : s.groups.dropLast.length ≤ s.n_alloc_groups := by
    rw [List.length_dropLast]
    omega
  by_cases he : s.err = Cerr.none
  · have hpos2 : 1 ≤ s.n_alloc_chars ∧ 1 ≤ s.n_alloc_words ∧ 1 ≤ s.n_alloc_groups := by
      rcases hpos with hi | hi
      · rw [he] at hi
        exact absurd hi (by decide)
      · exact hi
    cases op with
    | write b =>
      show BookLenInv (cbook_write s b)
      rcases cbook_write_cases s b he hc hw hpos2.2.1 hg hpos2.2.2
        with hov | ⟨herr, _, _, _, _, hc', hw', hg', h1c', h1w', h1g'⟩
      · rw [hov]
        exact ⟨hc, hw, hg, Or.inr hpos2⟩
      · exact ⟨hc', hw', hg', Or.inr ⟨h1c', h1w', h1g'⟩⟩
    | popWord =>
      show BookLenInv (cbook_pop_word s)
      rw [cbook_pop_word]
      split
      · exact ⟨hc, hw, hg, hpos⟩
      · split
        · split
          · exact ⟨htake _, hwdrop, hgdrop, hpos⟩
          · exact ⟨htake _, hwdrop, hgdrop, hpos⟩
        · exact ⟨htake _, hwdrop, hg, hpos⟩
    | popGroup =>
      show BookLenInv (cbook_pop_group s)
      rw [cbook_pop_group]
      split
      · exact ⟨hc, hw, hg, hpos⟩
      · exact ⟨htake _, hwtake _, hgdrop, hpos⟩
    | prepareNewGroup =>
      show BookLenInv (cbook_prepare_new_group s)
      rw [cbook_prepare_new_group]
      split
      · exact ⟨hc, hw, hg, hpos⟩
      · exact ⟨hc, hw, hg, hpos⟩
    | undoNewGroup =>
      show BookLenInv (cbook_undo_new_group s)
      rw [cbook_undo_new_group]
      split
      · exact ⟨hc, hw, hg, hpos⟩
      · exact ⟨hc, hw, hg, hpos⟩
    | prealloc nb nw ng =>
      show BookLenInv (cbook_prealloc s nb nw ng)
      rw [cbook_prealloc, if_neg (by simp [he])]
      rcases cbookGrow_spec s nb nw ng with ⟨hbad, hgeq⟩ | ⟨hok, hgeq⟩
      · rw [hgeq]
        exact ⟨hc, hw, hg, Or.inr hpos2⟩
      · rw [hgeq]
        show BookLenInv
          {s with
            n_alloc_chars := if s.n_alloc_chars < nb then nb else s.n_alloc_chars
            n_alloc_words := if s.n_alloc_words < nw then nw else s.n_alloc_words
            n_alloc_groups := if s.n_alloc_groups < ng then ng else s.n_alloc_groups}
        have l1 := le_if_lt_left s.n_alloc_chars nb
        have l2 := le_if_lt_left s.n_alloc_words nw
        have l3 := le_if_lt_left s.n_alloc_groups ng
        refine ⟨?_, ?_, ?_, Or.inr ⟨?_, ?_, ?_⟩⟩
        · show s.chars.length ≤ (if s.n_alloc_chars < nb then nb else s.n_alloc_chars)
          omega
        · show s.words.length ≤ (if s.n_alloc_words < nw then nw else s.n_alloc_words)
          omega
        · show s.groups.length ≤ (if s.n_alloc_groups < ng then ng else s.n_alloc_groups)
          omega
        · show 1 ≤ (if s.n_alloc_chars < nb then nb else s.n_alloc_chars)
          omega
        · show 1 ≤ (if s.n_alloc_words < nw then nw else s.n_alloc_words)
          omega
        · show 1 ≤ (if s.n_alloc_groups < ng then ng else s.n_alloc_groups)
          omega
    | clear =>
      show BookLenInv (cbook_clear s)
      rw [cbook_clear]
      split
      · exact ⟨hc, hw, hg, hpos⟩
      · exact ⟨by simp, by simp, by simp, hpos⟩
    | zero =>
      show BookLenInv (cbook_zero s)
      rw [cbook_zero]
      split
      · exact ⟨hc, hw, hg, hpos⟩
      · exact ⟨by simp, by simp, by simp, hpos⟩
    | repair =>
      show BookLenInv (cbook_repair s)
      rw [cbook_repair]
      split
      · rename_i hinv
        rcases hpos with hi | hi
        · exact absurd hi hinv
        · exact ⟨hc, hw, hg, Or.inr hi⟩
      · exact ⟨hc, hw, hg, hpos⟩
  · by_cases hop : op = BookOp.repair
    · subst hop
      show BookLenInv (cbook_repair s)
      rw [cbook_repair]
      split
      · rename_i hinv
        rcases hpos with hi | hi
        · exact absurd hi hinv
        · exact ⟨hc, hw, hg, Or.inr hi⟩
      · exact ⟨hc, hw, hg, hpos⟩
    · rw [applyBookOp_noop s he op hop]
      exact ⟨hc, hw, hg, hpos⟩

theorem bookLenInv_ops (l : List BookOp) :
    ∀ s, BookLenInv s → BookLenInv (applyBookOps l s) := by
  induction l with
  | nil => intro s h; exact h
  | cons op l ih =>
    intro s h
    exact ih _ (bookLenInv_step s h op)

theorem bookLenInv_create : BookLenInv cbook_create := by
  refine ⟨by simp [cbook_create], by simp [cbook_create], by simp [cbook_create],
    Or.inr ?_⟩
  refine ⟨?_, ?_, ?_⟩ <;> simp [cbook_create]

/-- C10: in every state reachable from `create` through any sequence of
public operations, the logical lengths never exceed the allocated
capacities — `n ≤ n_alloc` for the slot table and the registry, and all
three of `n_chars ≤ n_alloc_chars`, `n_words ≤ n_alloc_words`,
`n_groups ≤ n_alloc_groups` for the arena. -/
theorem length_le_capacity_reachable (m : Nat) (l1 : List InputsOp)
    (l2 : List RefOp) (l3 : List BookOp) :
    (applyInputsOps l1 (cinputs_create m)).slots.length ≤
      (applyInputsOps l1 (cinputs_create m)).n_alloc ∧
    (applyRefOps l2 cref_create).slots.length ≤
      (applyRefOps l2 cref_create).n_alloc ∧
    (applyBookOps l3 cbook_create).chars.length ≤
      (applyBookOps l3 cbook_create).n_alloc_chars ∧
    (applyBookOps l3 cbook_create).words.length ≤
      (applyBookOps l3 cbook_create).n_alloc_words ∧
    (applyBookOps l3 cbook_create).groups.length ≤
      (applyBookOps l3 cbook_create).n_alloc_groups := by
  have h1 := inputsInv_ops l1 (cinputs_create m) (inputsInv_create m)
  have h2 := refInv_ops l2 cref_create refInv_create
  have h3 := bookLenInv_ops l3 cbook_create bookLenInv_create
  exact ⟨h1, h2.1, h3.1, h3.2.1, h3.2.2.1⟩

/-! ## Claim C5: `pop_word` is the exact inverse of `write` -/

theorem getD_mem {l : List α} {i : Nat} (h : i < l.length) (d : α) :
    l.getD i d ∈ l := by
  induction l generalizing i with
  | nil => simp at h
  | cons a l ih =>
    cases i with
    | zero => simp
    | succ j =>
      simp only [List.length_cons] at h
      simp only [List.getD_cons_succ, List.mem_cons]
      exact Or.inr (ih (by omega) )

theorem dropLast_append_self {L : List α} {x : α} : (L ++ [x]).dropLast = L := by
  simp

/-- The three observables of an arena (byte, word and group contents);
capacities, the `new_group` flag and the error are deliberately excluded. -/
def bookObs (s : Cbook) : List Nat × List Nat × List Nat :=
  (s.chars, s.words, s.groups)

/-- What `cbook_pop_word` does to the observables, as a pure function. -/
def popObs : List Nat × List Nat × List Nat → List Nat × List Nat × List Nat
  | (c, w, g) =>
    if w.length = 0 then (c, w, g)
    else
      (c.take (w.getD (w.length - 1) 0), w.dropLast,
        if g.getD (g.length - 1) 0 = w.length - 1 then g.dropLast else g)

/-- On an error-free arena `cbook_pop_word` acts on the observables exactly
as `popObs`. -/
theorem pop_word_obs (x : Cbook) (hx : x.err = Cerr.none) :
    bookObs (cbook_pop_word x) = popObs (bookObs x) := by
  rw [cbook_pop_word]
  by_cases hw0 : x.words.length = 0
  · rw [if_pos (Or.inr hw0), bookObs, popObs]
    rw [if_pos hw0]
  · rw [if_neg (by push_neg; exact ⟨by simp [hx], hw0⟩)]
    by_cases hcond : x.groups.getD (x.groups.length - 1) 0 = x.words.length - 1
    · rw [if_pos hcond]
      by_cases hempty : x.groups.dropLast.length = 0
      · rw [if_pos hempty, bookObs, bookObs, popObs, if_neg hw0, if_pos hcond]
      · rw [if_neg hempty, bookObs, bookObs, popObs, if_neg hw0, if_pos hcond]
    · rw [if_neg hcond, bookObs, bookObs, popObs, if_neg hw0, if_neg hcond]

/-- `cbook_pop_word` never changes the error field. -/
theorem pop_word_err (x : Cbook) : (cbook_pop_word x).err = x.err := by
  rw [cbook_pop_word]
  split
  · rfl
  · split
    · split
      · rfl
      · rfl
    · rfl

/-- A `cbook_write` on an erroneous arena is a no-op. -/
theorem write_noop_of_err (x : Cbook) (b : List Nat) (hne : x.err ≠ Cerr.none) :
    cbook_write x b = x := by
  simp [cbook_write, hne]

theorem writes_err_none (l : List (List Nat)) :
    ∀ x : Cbook, (cbookWrites l x).err = Cerr.none → x.err = Cerr.none := by
  induction l with
  | nil => intro x h; exact h
  | cons b l ih =>
    intro x h
    by_cases hx : x.err = Cerr.none
    · exact hx
    · exfalso
      have hstep : cbookWrites (b :: l) x = cbookWrites l (cbook_write x b) := rfl
      rw [hstep, write_noop_of_err x b hx] at h
      exact hx (ih x h)

theorem cbookPops_succ_outer (n : Nat) :
    ∀ x, cbookPops (n + 1) x = cbook_pop_word (cbookPops n x) := by
  induction n with
  | zero => intro x; rfl
  | succ n ih =>
    intro x
    show cbookPops (n + 1) (cbook_pop_word x) = cbook_pop_word (cbookPops (n + 1) x)
    rw [ih (cbook_pop_word x)]
    rfl

theorem cbookPops_err (n : Nat) : ∀ x, (cbookPops n x).err = x.err := by
  induction n with
  | zero => intro x; rfl
  | succ n ih =>
    intro x
    show (cbookPops n (cbook_pop_word x)).err = x.err
    rw [ih (cbook_pop_word x), pop_word_err]

/-- Structural invariant used by the stack law: capacities bound and are
positive, a cleared `new_group` flag means a group exists (so a word never
lands outside every group), and every group starts strictly before the
current word count (groups are never empty). -/
def BookInv (s : Cbook) : Prop :=
  s.chars.length ≤ s.n_alloc_chars ∧ s.words.length ≤ s.n_alloc_words ∧
  s.groups.length ≤ s.n_alloc_groups ∧ 1 ≤ s.n_alloc_chars ∧
  1 ≤ s.n_alloc_words ∧ 1 ≤ s.n_alloc_groups ∧
  (s.new_group = false → s.groups ≠ []) ∧
  (∀ g ∈ s.groups, g < s.words.length)

theorem bookInv_write (s : Cbook) (b : List Nat) (he : s.err = Cerr.none)
    (hs : (cbook_write s b).err = Cerr.none) (hinv : BookInv s) :
    BookInv (cbook_write s b) := by
  obtain ⟨h1, h2, h3, h4, h5, h6, h7, h8⟩ := hinv
  rcases cbook_write_cases s b he h1 h2 h5 h3 h6
    with hov | ⟨herr, hch, hwo, hgr, hng, hc', hw', hg', h1c', h1w', h1g'⟩
  · rw [hov] at hs
    exact absurd hs (by simp)
  · refine ⟨hc', hw', hg', h1c', h1w', h1g', ?_, ?_⟩
    · intro _
      rw [hgr]
      by_cases hflag : s.new_group = true
      · rw [if_pos hflag]
        simp
      · have hflag2 : s.new_group = false := by
          cases hng2 : s.new_group
          · rfl
          · exact absurd hng2 hflag
        rw [if_neg (by simp [hflag2])]
        simpa using h7 hflag2
    · intro g hg
      rw [hgr] at hg
      rw [hwo, List.length_append, List.length_cons, List.length_nil]
      rcases List.mem_append.mp hg with hmem | hmem
      · have := h8 g hmem
        omega
      · by_cases hflag : s.new_group = true
        · rw [if_pos hflag] at hmem
          simp only [List.mem_singleton] at hmem
          omega
        · rw [if_neg hflag] at hmem
          simp at hmem

/-- Popping the word just written restores the three observables exactly. -/
theorem pop_write_obs (s : Cbook) (b : List Nat) (he : s.err = Cerr.none)
    (hs : (cbook_write s b).err = Cerr.none) (hinv : BookInv s) :
    bookObs (cbook_pop_word (cbook_write s b)) = bookObs s := by
  obtain ⟨h1, h2, h3, h4, h5, h6, h7, h8⟩ := hinv
  rcases cbook_write_cases s b he h1 h2 h5 h3 h6
    with hov | ⟨herr, hch, hwo, hgr, hng, hc', hw', hg', h1c', h1w', h1g'⟩
  · rw [hov] at hs
    exact absurd hs (by simp)
  · rw [pop_word_obs _ herr]
    rw [bookObs, hch, hwo, hgr, bookObs]
    have hwlen : (s.words ++ [s.chars.length]).length = s.words.length + 1 := by
      simp
    have hgetw : (s.words ++ [s.chars.length]).getD
        ((s.words ++ [s.chars.length]).length - 1) 0 = s.chars.length := by
      rw [hwlen]
      simpa using (getD_append_self :
        (s.words ++ [s.chars.length]).getD s.words.length 0 = s.chars.length)
    have htakec : (s.chars ++ b ++ [0]).take s.chars.length = s.chars := by
      rw [List.append_assoc]
      exact take_append_self
    by_cases hflag : s.new_group = true
    · rw [if_pos hflag]
      rw [popObs]
      rw [if_neg (by simp)]
      have hglen : (s.groups ++ [s.words.length]).length = s.groups.length + 1 := by
        simp
      have hgetg : (s.groups ++ [s.words.length]).getD
          ((s.groups ++ [s.words.length]).length - 1) 0 = s.words.length := by
        rw [hglen]
        simpa using (getD_append_self :
          (s.groups ++ [s.words.length]).getD s.groups.length 0 = s.words.length)
      rw [if_pos (by rw [hgetg, hwlen]; omega)]
      rw [hgetw, htakec, dropLast_append_self, dropLast_append_self]
    · have hflag2 : s.new_group = false := by
        cases hng2 : s.new_group
        · rfl
        · exact absurd hng2 hflag
      rw [if_neg (by simp [hflag2])]
      rw [List.append_nil]
      rw [popObs]
      rw [if_neg (by simp)]
      have hne : s.groups ≠ [] := h7 hflag2
      have hmem : s.groups.getD (s.groups.length - 1) 0 ∈ s.groups := by
        apply getD_mem
        have : 0 < s.groups.length := List.length_pos.mpr hne
        omega
      have hlt := h8 _ hmem
      rw [if_neg (by rw [hwlen]; omega)]
      rw [hgetw, htakec, dropLast_append_self]

theorem c5_aux (l : List (List Nat)) :
    ∀ s : Cbook, s.err = Cerr.none → BookInv s →
      (cbookWrites l s).err = Cerr.none →
      bookObs (cbookPops l.length (cbookWrites l s)) = bookObs s ∧
      (cbookPops l.length (cbookWrites l s)).err = Cerr.none := by
  induction l with
  | nil =>
    intro s he _ _
    exact ⟨rfl, he⟩
  | cons b l ih =>
    intro s he hinv hok
    have hstep : cbookWrites (b :: l) s = cbookWrites l (cbook_write s b) := rfl
    rw [hstep] at hok ⊢
    have hwerr : (cbook_write s b).err = Cerr.none := writes_err_none l _ hok
    have hinv2 : BookInv (cbook_write s b) := bookInv_write s b he hwerr hinv
    obtain ⟨ihObs, ihErr⟩ := ih (cbook_write s b) hwerr hinv2 hok
    show bookObs (cbookPops (l.length + 1) (cbookWrites l (cbook_write s b))) = bookObs s ∧
      (cbookPops (l.length + 1) (cbookWrites l (cbook_write s b))).err = Cerr.none
    rw [cbookPops_succ_outer]
    constructor
    · rw [pop_word_obs _ ihErr, ihObs, ← pop_word_obs _ hwerr]
      exact pop_write_obs s b he hwerr hinv
    · rw [pop_word_err]
      exact ihErr

/-- C5: starting from any error-free arena satisfying the structural
invariant (which every reachable arena satisfies), a sequence of `k`
successful writes followed by `k` `pop_word` calls restores the exact
prior `length` (byte count), `words_number` and `groups_number` — indeed
the full byte, word-offset and group-offset contents. -/
theorem cbook_write_pop_inverse (s : Cbook) (l : List (List Nat))
    (he : s.err = Cerr.none) (hinv : BookInv s)
    (hok : (cbookWrites l s).err = Cerr.none) :
    cbook_length (cbookPops l.length (cbookWrites l s)) = cbook_length s ∧
    cbook_words_number (cbookPops l.length (cbookWrites l s)) = cbook_words_number s ∧
    cbook_groups_number (cbookPops l.length (cbookWrites l s)) = cbook_groups_number s := by
  obtain ⟨hobs, herr⟩ := c5_aux l s he hinv hok
  have hch : (cbookPops l.length (cbookWrites l s)).chars = s.chars :=
    congrArg Prod.fst hobs
  have hwo : (cbookPops l.length (cbookWrites l s)).words = s.words :=
    congrArg Prod.fst (congrArg Prod.snd hobs)
  have hgr : (cbookPops l.length (cbookWrites l s)).groups = s.groups :=
    congrArg Prod.snd (congrArg Prod.snd hobs)
  refine ⟨?_, ?_, ?_⟩
  · rw [cbook_length, cbook_length, if_neg (by simp [herr]), if_neg (by simp [he]), hch]
  · rw [cbook_words_number, cbook_words_number, if_neg (by simp [herr]),
      if_neg (by simp [he]), hwo]
  · rw [cbook_groups_number, cbook_groups_number, if_neg (by simp [herr]),
      if_neg (by simp [he]), hgr]

theorem cbook_write_pop_inverse_witness :
    cbook_length (cbookPops 3 (cbookWrites [[97], [98, 98], [99]] cbook_create)) =
      cbook_length cbook_create ∧
    cbook_words_number (cbookPops 3 (cbookWrites [[97], [98, 98], [99]] cbook_create)) =
      cbook_words_number cbook_create ∧
    cbook_groups_number (cbookPops 3 (cbookWrites [[97], [98, 98], [99]] cbook_create)) =
      cbook_groups_number cbook_create := by
  have h := cbook_write_pop_inverse cbook_create [[97], [98, 98], [99]]
    (by decide) (by unfold BookInv; decide) (by decide)
  exact h
